import Mathlib

/-!
# Template helper functions of `internal/gqlassist/template_utils.go`

A shallow embedding of the closures built by `makeTemplateFuncMap` and
theorems about them.

Modelling conventions.

* A Go `string` is a Lean `String`, read as its sequence of runes
  (`String.data`).  The schema document is decoded JSON, so its strings are
  valid UTF-8 and byte operations on an ASCII prefix coincide with rune
  operations.
* A Go `interface{}` holding decoded JSON is a `Value`; a
  `map[string]interface{}` is an association list, `m[k]` being the first
  entry with key `k`.
* A Go panic is the `error` side of `Except Panic`.
* Two functions come from imported packages whose sources are not part of
  the repository: the non-ASCII half of `unicode.ToLower` and
  `ident.ParseScreamingSnakeCase(s).ToMixedCaps()`.  They are the fields of
  `Lib`, and every definition that calls them takes a `Lib`.
* The sorts `sort.Slice` and `sort.Strings`, the lower-casing of a byte that
  is not a rune and the non-ASCII half of `unicode.IsSpace` are the fields of
  `Stdlib`; what the documentation of the sorts promises is `Stdlib.Sorts`.
* `formatDescription` slices its argument by bytes, so it is modelled on
  `Bytes`, with `utf8` taking a string of runes to its bytes.  The order of
  strings is the order of their runes, which is the order of their bytes in
  UTF-8.
-/

namespace Gqlassist

/-! ## Data model -/

/-- Decoded JSON as produced by `encoding/json` into `interface{}`. -/
inductive Value where
  | null : Value
  | bool (b : Bool) : Value
  | number (n : Int) : Value
  | str (s : String) : Value
  | array (items : List Value) : Value
  | object (fields : List (String × Value)) : Value

/-- A `map[string]interface{}`. -/
abbrev Obj := List (String × Value)

/-- The ways in which the helpers stop with a run-time panic. -/
inductive Panic where
  /-- A failed type assertion `x.(T)`, also on a missing (nil) entry. -/
  | typeAssertion : Panic
  /-- The explicit `panic(fmt.Errorf("nullable type %q doesn't begin with '*'", s))`. -/
  | notNullable (s : String) : Panic
  /-- A slice expression out of range, as `s[0:1]` on an empty string. -/
  | sliceBounds : Panic
  deriving DecidableEq

/-- Functions of imported packages, taken as parameters. -/
structure Lib where
  /-- The rune map `unicode.ToLower` on runes above `unicode.MaxASCII`. -/
  unicodeToLower : Char → Char
  /-- The composite `ident.ParseScreamingSnakeCase(s).ToMixedCaps()`. -/
  toMixedCaps : String → String

/-! ## Go string primitives -/

/-- The rune map `unicode.ToLower`: `'A'..'Z'` go to `'a'..'z'`, other ASCII
runes are unchanged, the rest is delegated to the Unicode case tables. -/
def lowerRune (L : Lib) (c : Char) : Char :=
  if c.toNat < 128 then
    if 65 ≤ c.toNat ∧ c.toNat ≤ 90 then Char.ofNat (c.toNat + 32) else c
  else L.unicodeToLower c

/-- The function `strings.ToLower`. -/
def toLower (L : Lib) (s : String) : String :=
  ⟨s.data.map (lowerRune L)⟩

/-- The function `strings.TrimLeft(s, "_")`. -/
def trimLeftUnderscore (s : String) : String :=
  ⟨s.data.dropWhile (fun c => c == '_')⟩

/-- The function `strings.HasPrefix(s, "*")`. -/
def hasStar (s : String) : Bool :=
  match s.data with
  | c :: _ => c == '*'
  | [] => false

/-- The slice `s[1:]`, used only after `hasStar s`. -/
def dropFirst (s : String) : String :=
  ⟨s.data.drop 1⟩

/-! ## Naming transforms -/

/-- The closure `scalarIdentifier`. -/
def scalarIdentifier (L : Lib) (s : String) : String :=
  L.toMixedCaps s

/-- The closure `identifier`. -/
def identifier (L : Lib) (s : String) : String :=
  L.toMixedCaps (trimLeftUnderscore s)

/-- The closure `enumTypeString`, registered as `enumType`. -/
def enumTypeString (L : Lib) (s : String) : String :=
  identifier L s

/-- The closure `scalarTypeString`, registered as `scalarType`. -/
def scalarTypeString (L : Lib) (gqltype : String) : String :=
  let tnorm := toLower L gqltype
  if tnorm = "order_by" then "string"
  else if tnorm = "time" then "time.Time"
  else if tnorm = "timestamp" then "time.Time"
  else if tnorm = "timestamptz" then "time.Time"
  else if tnorm = "date" then "time.Time"
  else if tnorm = "datetime" then "time.Time"
  else if tnorm = "uuid" then "uuid.UUID"
  else if tnorm = "id" then "string"
  else if tnorm = "string" then "string"
  else if tnorm = "boolean" then "bool"
  else if tnorm = "float" then "float64"
  else if tnorm = "integer" then "time.Time"
  else if tnorm = "int" then "int32"
  else if tnorm = "json" then "map[string]interface\x7b\x7d"
  else if tnorm = "jsonb" then "map[string]interface\x7b\x7d"
  else scalarIdentifier L gqltype

/-- The case labels of the `switch tnorm` in `scalarTypeString`, each with
the token its case returns, in source order. -/
def scalarTable : List (String × String) :=
  [("order_by", "string"), ("time", "time.Time"), ("timestamp", "time.Time"),
   ("timestamptz", "time.Time"), ("date", "time.Time"), ("datetime", "time.Time"),
   ("uuid", "uuid.UUID"), ("id", "string"), ("string", "string"),
   ("boolean", "bool"), ("float", "float64"), ("integer", "time.Time"),
   ("int", "int32"), ("json", "map[string]interface\x7b\x7d"),
   ("jsonb", "map[string]interface\x7b\x7d")]

/-! ## Type resolver -/

/-- The comparison `v == k` of an interface value (nil when the map has no
entry) with a string constant, as made by `switch t["kind"]`. -/
def ifaceIs (v : Option Value) (k : String) : Bool :=
  match v with
  | some (Value.str s) => s == k
  | _ => false

/-- The type assertion `v.(string)`. -/
def assertString (v : Option Value) : Except Panic String :=
  match v with
  | some (Value.str s) => Except.ok s
  | _ => Except.error Panic.typeAssertion

/-- A looked-up entry is smaller than the map holding it. -/
theorem lookup_sizeOf_lt (k : String) (t : Obj) (v : Value)
    (h : t.lookup k = some v) : sizeOf v < sizeOf t := by
  induction t with
  | nil => simp [List.lookup] at h
  | cons p rest ih =>
    obtain ⟨k1, v1⟩ := p
    by_cases hk : k == k1
    · simp only [List.lookup, hk] at h
      cases h
      simp
      omega
    · simp only [List.lookup, hk] at h
      have := ih h
      simp
      omega

/-- The recursive closure `typeString`, registered as `type`. -/
def typeString (L : Lib) (t : Obj) : Except Panic String :=
  if ifaceIs (t.lookup "kind") "SCALAR" then
    match assertString (t.lookup "name") with
    | Except.ok name => Except.ok ("*" ++ scalarTypeString L name)
    | Except.error e => Except.error e
  else if ifaceIs (t.lookup "kind") "NON_NULL" then
    match h : t.lookup "ofType" with
    | some (Value.object inner) =>
      match typeString L inner with
      | Except.ok s =>
        if hasStar s then Except.ok (dropFirst s)
        else Except.error (Panic.notNullable s)
      | Except.error e => Except.error e
    | _ => Except.error Panic.typeAssertion
  else if ifaceIs (t.lookup "kind") "LIST" then
    match h : t.lookup "ofType" with
    | some (Value.object inner) =>
      match typeString L inner with
      | Except.ok s => Except.ok ("*[]" ++ s)
      | Except.error e => Except.error e
    | _ => Except.error Panic.typeAssertion
  else if ifaceIs (t.lookup "kind") "ENUM" then
    match assertString (t.lookup "name") with
    | Except.ok name => Except.ok ("*" ++ enumTypeString L name)
    | Except.error e => Except.error e
  else
    match assertString (t.lookup "name") with
    | Except.ok name => Except.ok ("*" ++ identifier L name)
    | Except.error e => Except.error e
termination_by sizeOf t
decreasing_by
  all_goals
    have hlt := lookup_sizeOf_lt _ _ _ h
    simp at hlt
    omega

/-! ## An instance of the imported functions -/

/-- ASCII upper-casing of a rune. -/
def upperAscii (c : Char) : Char :=
  if 97 ≤ c.toNat ∧ c.toNat ≤ 122 then Char.ofNat (c.toNat - 32) else c

/-- ASCII lower-casing of a rune. -/
def lowerAscii (c : Char) : Char :=
  if 65 ≤ c.toNat ∧ c.toNat ≤ 90 then Char.ofNat (c.toNat + 32) else c

/-- The words between underscores, as `strings.Split(s, "_")` lists them. -/
def splitUnderscore : List Char → List (List Char)
  | [] => [[]]
  | c :: rest =>
    if c = '_' then [] :: splitUnderscore rest
    else
      match splitUnderscore rest with
      | w :: ws => (c :: w) :: ws
      | [] => [[c]]

/-- One word in MixedCaps for the sample conversion: the first rune
upper-cased, the rest lower-cased; an empty word is rendered as U+FFFD, so
that an underscore at the front of a name shows in the result. -/
def capitalizeWord : List Char → List Char
  | [] => [Char.ofNat 0xFFFD]
  | c :: rest => upperAscii c :: rest.map lowerAscii

/-- A concrete `Lib`, used to instantiate the parameter where a statement
needs values: case mapping on ASCII letters only, and a sample MixedCaps
conversion that splits on underscores and capitalises each word. It is an
instance of the parameter, not the `ident` package; the theorems that
quantify over `Lib` do not depend on it. -/
def plainLib : Lib where
  unicodeToLower := fun c => c
  toMixedCaps := fun s => ⟨(splitUnderscore s.data).flatMap capitalizeWord⟩

/-- An instance whose Unicode lower-casing sends the Kelvin sign U+212A to
`k`, as the Unicode case tables do; the conversion is that of `plainLib`. -/
def kelvinLib : Lib where
  unicodeToLower := fun c => if c = Char.ofNat 0x212A then 'k' else c
  toMixedCaps := plainLib.toMixedCaps

/-! ## Nodes used in the statements -/

/-- The node `{kind: "NON_NULL", ofType: N}`. -/
def nonNullOf (N : Obj) : Obj :=
  [("kind", Value.str "NON_NULL"), ("ofType", Value.object N)]

/-- The node `{kind: "LIST", ofType: N}`. -/
def listOf (N : Obj) : Obj :=
  [("kind", Value.str "LIST"), ("ofType", Value.object N)]

/-- The node `{kind: k, name: n}`. -/
def named (k n : String) : Obj :=
  [("kind", Value.str k), ("name", Value.str n)]

/-! ## Standard-library functions of the collection and formatting helpers -/

/-- The bytes of a Go string, each below 256. -/
abbrev Bytes := List Nat

/-- Functions of the Go standard library whose result is not fixed by the
repository: the two sorts, lower-casing of a byte that is not a rune, and
the white-space test above ASCII. -/
structure Stdlib where
  /-- The call `sort.Slice(x, less)`: the slice after the call, or the panic
  raised by a call of `less`. The sort is not stable. -/
  sortSlice : (Value → Value → Except Panic Bool) → List Value → Except Panic (List Value)
  /-- The call `sort.Strings(x)`: the slice after the call. -/
  sortStrings : List String → List String
  /-- The result of `strings.ToLower` on the one-byte string holding a byte
  from 0x80 up, which is not valid UTF-8. -/
  lowerLoneByte : Nat → Bytes
  /-- The test `unicode.IsSpace` on runes above `unicode.MaxASCII`. -/
  unicodeIsSpace : Char → Bool

/-- The documented behaviour of the two sorts: on a comparison that does not
panic on the elements and is a strict weak order, `sort.Slice` returns a
permutation in which no element is less than an earlier one; `sort.Strings`
returns the permutation in increasing order. -/
structure Stdlib.Sorts (T : Stdlib) : Prop where
  slice : ∀ (less : Value → Value → Except Panic Bool) (lt : Value → Value → Bool)
    (xs : List Value),
    (∀ a ∈ xs, ∀ b ∈ xs, less a b = Except.ok (lt a b)) →
    (∀ a b, lt a b = true → lt b a = false) →
    (∀ a b c, lt a b = false → lt b c = false → lt a c = false) →
    ∃ ys, T.sortSlice less xs = Except.ok ys ∧ ys.Perm xs ∧
      ys.Pairwise (fun a b => lt b a = false)
  strings_perm : ∀ xs, (T.sortStrings xs).Perm xs
  strings_sorted : ∀ xs, (T.sortStrings xs).Pairwise (fun a b => a ≤ b)

/-! ## Collection query helpers -/

/-- The closure `isExcluded`. -/
def isExcluded (_s : String) : Bool :=
  false

/-- The closure `filterBy`; the loop is a recursion on the slice. -/
def filterBy (field kind : String) : List Value → Except Panic (List Value)
  | [] => Except.ok []
  | t :: rest =>
    match t with
    | Value.object m =>
      match m.lookup field with
      | some val =>
        match assertString (some val) with
        | Except.error e => Except.error e
        | Except.ok s =>
          if s == kind && !isExcluded s then
            match filterBy field kind rest with
            | Except.ok filtered => Except.ok (t :: filtered)
            | Except.error e => Except.error e
          else filterBy field kind rest
      | none => filterBy field kind rest
    | _ => Except.error Panic.typeAssertion

/-- The closure `extractField`; the loop is a recursion on the slice. -/
def extractField (field : String) : List Value → Except Panic (List String)
  | [] => Except.ok []
  | t :: rest =>
    match t with
    | Value.object m =>
      match m.lookup field with
      | some val =>
        match assertString (some val) with
        | Except.error e => Except.error e
        | Except.ok s =>
          match extractField field rest with
          | Except.ok values => Except.ok (s :: values)
          | Except.error e => Except.error e
      | none => extractField field rest
    | _ => Except.error Panic.typeAssertion

/-- The expression `types[i].(map[string]interface{})["name"].(string)`. -/
def nameOf (v : Value) : Except Panic String :=
  match v with
  | Value.object m => assertString (m.lookup "name")
  | _ => Except.error Panic.typeAssertion

/-- The comparison closure handed to `sort.Slice` by `sortByName`. -/
def lessByName (a b : Value) : Except Panic Bool :=
  match nameOf a with
  | Except.error e => Except.error e
  | Except.ok ni =>
    match nameOf b with
    | Except.error e => Except.error e
    | Except.ok nj => Except.ok (decide (ni < nj))

/-- The comparison closure handed to `sort.Slice` by `sortByNameRev`. -/
def lessByNameRev (a b : Value) : Except Panic Bool :=
  match nameOf a with
  | Except.error e => Except.error e
  | Except.ok ni =>
    match nameOf b with
    | Except.error e => Except.error e
    | Except.ok nj => Except.ok (decide (ni > nj))

/-- The closure `sortByName`. -/
def sortByName (T : Stdlib) (types : List Value) : Except Panic (List Value) :=
  T.sortSlice lessByName types

/-- The closure `sortByNameRev`. -/
def sortByNameRev (T : Stdlib) (types : List Value) : Except Panic (List Value) :=
  T.sortSlice lessByNameRev types

/-- The loop shared by `inputObjects` and `objects`: the names of the
elements whose kind is `kind`, in order. -/
def namesOfKind (kind : String) : List Value → Except Panic (List String)
  | [] => Except.ok []
  | t :: rest =>
    match t with
    | Value.object m =>
      match assertString (m.lookup "kind") with
      | Except.error e => Except.error e
      | Except.ok k =>
        if k != kind then namesOfKind kind rest
        else
          match assertString (m.lookup "name") with
          | Except.error e => Except.error e
          | Except.ok name =>
            match namesOfKind kind rest with
            | Except.ok names => Except.ok (name :: names)
            | Except.error e => Except.error e
    | _ => Except.error Panic.typeAssertion

/-- The closure `inputObjects`. -/
def inputObjects (T : Stdlib) (types : List Value) : Except Panic (List String) :=
  match namesOfKind "INPUT_OBJECT" types with
  | Except.ok names => Except.ok (T.sortStrings names)
  | Except.error e => Except.error e

/-- The closure `objects`. -/
def objects (T : Stdlib) (types : List Value) : Except Panic (List String) :=
  match namesOfKind "OBJECT" types with
  | Except.ok names => Except.ok (T.sortStrings names)
  | Except.error e => Except.error e

/-! ## String formatting helpers -/

/-- The test `unicode.IsSpace`: tab, line feed, vertical tab, form feed,
carriage return and space in ASCII, the Unicode table above. -/
def isSpace (T : Stdlib) (c : Char) : Bool :=
  if c.toNat < 128 then
    c.toNat == 9 || c.toNat == 10 || c.toNat == 11 || c.toNat == 12 || c.toNat == 13 ||
      c.toNat == 32
  else T.unicodeIsSpace c

/-- The function `strings.Fields` on runes: the maximal runs without white
space, in order. -/
def fields (T : Stdlib) : List Char → List (List Char)
  | [] => []
  | c :: rest =>
    if isSpace T c then fields T rest
    else
      match rest with
      | [] => [[c]]
      | d :: _ =>
        if isSpace T d then [c] :: fields T rest
        else
          match fields T rest with
          | w :: ws => (c :: w) :: ws
          | [] => [[c]]

/-- The function `strings.Join(words, " ")` on runes. -/
def joinSpace : List (List Char) → List Char
  | [] => []
  | [w] => w
  | w :: v :: ws => w ++ ' ' :: joinSpace (v :: ws)

/-- The closure `clean`. -/
def clean (T : Stdlib) (s : String) : String :=
  ⟨joinSpace (fields T s.data)⟩

/-- The UTF-8 encoding of a rune. -/
def utf8Rune (c : Char) : Bytes :=
  let v := c.toNat
  if v < 0x80 then [v]
  else if v < 0x800 then [0xC0 + v / 64, 0x80 + v % 64]
  else if v < 0x10000 then [0xE0 + v / 4096, 0x80 + v / 64 % 64, 0x80 + v % 64]
  else [0xF0 + v / 262144, 0x80 + v / 4096 % 64, 0x80 + v / 64 % 64, 0x80 + v % 64]

/-- The bytes of a string of runes. -/
def utf8 (s : String) : Bytes :=
  s.data.flatMap utf8Rune

/-- The expression `strings.ToLower(s[0:1])` for the first byte `b` of `s`:
an ASCII byte is a rune and is lower-cased, another byte is not a rune. -/
def lowerFirstByte (T : Stdlib) (b : Nat) : Bytes :=
  if b < 128 then
    if 65 ≤ b ∧ b ≤ 90 then [b + 32] else [b]
  else T.lowerLoneByte b

/-- The test `strings.HasSuffix(s, ".")`. -/
def hasSuffixDot (s : Bytes) : Bool :=
  s.getLast? == some 46

/-- The closure `formatDescription`, on the bytes of its argument. -/
def formatDescription (T : Stdlib) (s : Bytes) : Except Panic Bytes :=
  match s with
  | [] => Except.error Panic.sliceBounds
  | b :: rest =>
    let s1 := lowerFirstByte T b ++ rest
    if hasSuffixDot s1 then Except.ok s1 else Except.ok (s1 ++ [46])

/-! ## An instance of the standard-library functions -/

/-- The truth value of a comparison that did not panic. -/
def saidLess (less : Value → Value → Except Panic Bool) (a b : Value) : Bool :=
  match less a b with
  | Except.ok true => true
  | _ => false

/-- Whether a comparison panics nowhere on a slice. -/
def neverPanics (less : Value → Value → Except Panic Bool) (xs : List Value) : Bool :=
  xs.all fun a => xs.all fun b =>
    match less a b with
    | Except.ok _ => true
    | Except.error _ => false

/-- A concrete `Stdlib`, used to instantiate the parameter: both sorts are
insertion sorts, a byte that is not a rune becomes U+FFFD, and the white
space above ASCII is NEL and NBSP. -/
def plainStd : Stdlib where
  sortSlice := fun less xs =>
    if neverPanics less xs then
      Except.ok (xs.insertionSort fun a b => saidLess less b a = false)
    else Except.error Panic.typeAssertion
  sortStrings := fun xs => xs.insertionSort fun a b => a ≤ b
  lowerLoneByte := fun _ => [0xEF, 0xBF, 0xBD]
  unicodeIsSpace := fun c => c.toNat == 0x85 || c.toNat == 0xA0

/-! ## Readings of the collection helpers used in the statements -/

/-- The string an element carries under `field`, if it is a map that has the
field with a string value. -/
def fieldOf (field : String) (v : Value) : Option String :=
  match v with
  | Value.object m =>
    match m.lookup field with
    | some (Value.str s) => some s
    | _ => none
  | _ => none

/-- An element is a map whose entry under `field`, if any, is a string. -/
def StringField (field : String) (v : Value) : Prop :=
  ∃ m, v = Value.object m ∧ (m.lookup field = none ∨ ∃ s, m.lookup field = some (Value.str s))

/-- An element is a map that has a string under `field`. -/
def HasString (field : String) (v : Value) : Prop :=
  ∃ m s, v = Value.object m ∧ m.lookup field = some (Value.str s)

/-- A word: at least one rune, none of them white space. -/
def IsWord (T : Stdlib) (w : List Char) : Prop :=
  w ≠ [] ∧ ∀ c ∈ w, isSpace T c = false

/-- The name used as sort key; empty for an element without a string name. -/
def nameKey (v : Value) : String :=
  (fieldOf "name" v).getD ""

/-- The element `{kind: k, name: n}` of a collection. -/
def element (k n : String) : Value :=
  Value.object (named k n)

/-- Filter-by, then Extract-field of the names, then the sort of strings:
what the specification equates `objects` and `inputObjects` with. -/
def namesByFilter (T : Stdlib) (kind : String) (types : List Value) :
    Except Panic (List String) :=
  match filterBy "kind" kind types with
  | Except.error e => Except.error e
  | Except.ok filtered =>
    match extractField "name" filtered with
    | Except.error e => Except.error e
    | Except.ok names => Except.ok (T.sortStrings names)

/-- The nodes the resolver is meant for: every node has a string kind, a
`NON_NULL` or `LIST` node has a node under "ofType", any other node has a
string name, and no `NON_NULL` node is directly around a `NON_NULL` node. -/
inductive WellFormed : Obj → Prop where
  | named (t : Obj) (k n : String) :
      t.lookup "kind" = some (Value.str k) → k ≠ "NON_NULL" → k ≠ "LIST" →
      t.lookup "name" = some (Value.str n) → WellFormed t
  | list (t inner : Obj) :
      t.lookup "kind" = some (Value.str "LIST") →
      t.lookup "ofType" = some (Value.object inner) →
      WellFormed inner → WellFormed t
  | nonNull (t inner : Obj) :
      t.lookup "kind" = some (Value.str "NON_NULL") →
      t.lookup "ofType" = some (Value.object inner) →
      ifaceIs (inner.lookup "kind") "NON_NULL" = false →
      WellFormed inner → WellFormed t

/-- A `NON_NULL` node directly around a `NON_NULL` node occurs in the chain of
wrappers of a node. -/
inductive DoubleNonNull : Obj → Prop where
  | direct (t inner : Obj) :
      ifaceIs (t.lookup "kind") "NON_NULL" = true →
      t.lookup "ofType" = some (Value.object inner) →
      ifaceIs (inner.lookup "kind") "NON_NULL" = true → DoubleNonNull t
  | deeper (t inner : Obj) :
      (ifaceIs (t.lookup "kind") "NON_NULL" = true ∨
        ifaceIs (t.lookup "kind") "LIST" = true) →
      t.lookup "ofType" = some (Value.object inner) →
      DoubleNonNull inner → DoubleNonNull t

/-! ## Lemmas on the string primitives -/

/-- A string that starts with the marker is the marker followed by its tail. -/
theorem eq_star_append_dropFirst (s : String) (h : hasStar s = true) :
    s = "*" ++ dropFirst s := by
  apply String.ext
  rcases hd : s.data with _ | ⟨c, rest⟩
  · simp [hasStar, hd] at h
  · simp [hasStar, hd] at h
    simp [dropFirst, hd, h]

/-- A string built with the marker in front starts with the marker. -/
theorem hasStar_star_append (x : String) : hasStar ("*" ++ x) = true := by
  simp [hasStar]

/-- Removing the first byte of the marker followed by `x` leaves `x`. -/
theorem dropFirst_star_append (x : String) : dropFirst ("*" ++ x) = x := by
  apply String.ext
  simp [dropFirst]

/-- A string that starts with the marker is not empty. -/
theorem ne_empty_of_hasStar (s : String) (h : hasStar s = true) : s ≠ "" := by
  intro hs
  subst hs
  simp [hasStar] at h

/-! ## Unfolding `typeString` one level -/

/-- An interface value equals at most one string constant. -/
theorem ifaceIs_excl (v : Option Value) (a b : String)
    (h : ifaceIs v a = true) (hab : a ≠ b) : ifaceIs v b = false := by
  unfold ifaceIs at h ⊢
  split at h
  · rename_i s
    simp only [beq_iff_eq] at h
    subst h
    simpa using hab
  · simp at h

/-- The `NON_NULL` branch. -/
theorem typeString_nonNull_eq (L : Lib) (t inner : Obj)
    (hk : ifaceIs (t.lookup "kind") "NON_NULL" = true)
    (ho : t.lookup "ofType" = some (Value.object inner)) :
    typeString L t =
      match typeString L inner with
      | Except.ok s =>
        if hasStar s then Except.ok (dropFirst s)
        else Except.error (Panic.notNullable s)
      | Except.error e => Except.error e := by
  have hs : ifaceIs (t.lookup "kind") "SCALAR" = false :=
    ifaceIs_excl _ _ _ hk (by decide)
  rw [typeString]
  simp only [hs, hk, if_true, Bool.false_eq_true, if_false]
  split
  · rename_i inner2 heq
    rw [ho] at heq
    cases heq
    rfl
  · rename_i hne
    exact absurd ho (hne inner)

/-- The `LIST` branch. -/
theorem typeString_list_eq (L : Lib) (t inner : Obj)
    (hk : ifaceIs (t.lookup "kind") "LIST" = true)
    (ho : t.lookup "ofType" = some (Value.object inner)) :
    typeString L t =
      match typeString L inner with
      | Except.ok s => Except.ok ("*[]" ++ s)
      | Except.error e => Except.error e := by
  have hs : ifaceIs (t.lookup "kind") "SCALAR" = false :=
    ifaceIs_excl _ _ _ hk (by decide)
  have hn : ifaceIs (t.lookup "kind") "NON_NULL" = false :=
    ifaceIs_excl _ _ _ hk (by decide)
  rw [typeString]
  simp only [hs, hn, hk, if_true, Bool.false_eq_true, if_false]
  split
  · rename_i inner2 heq
    rw [ho] at heq
    cases heq
    rfl
  · rename_i hne
    exact absurd ho (hne inner)

/-- A wrapper node whose `ofType` entry is not a map panics on the type
assertion. -/
theorem typeString_wrapper_no_ofType (L : Lib) (t : Obj)
    (hk : ifaceIs (t.lookup "kind") "NON_NULL" = true ∨
      ifaceIs (t.lookup "kind") "LIST" = true)
    (ho : ∀ inner, t.lookup "ofType" ≠ some (Value.object inner)) :
    typeString L t = Except.error Panic.typeAssertion := by
  rcases hk with hk | hk
  · have hs : ifaceIs (t.lookup "kind") "SCALAR" = false :=
      ifaceIs_excl _ _ _ hk (by decide)
    rw [typeString]
    simp only [hs, hk, if_true, Bool.false_eq_true, if_false]
  · have hs : ifaceIs (t.lookup "kind") "SCALAR" = false :=
      ifaceIs_excl _ _ _ hk (by decide)
    have hn : ifaceIs (t.lookup "kind") "NON_NULL" = false :=
      ifaceIs_excl _ _ _ hk (by decide)
    rw [typeString]
    simp only [hs, hn, hk, if_true, Bool.false_eq_true, if_false]

/-- The `SCALAR` branch. -/
theorem typeString_scalar_eq (L : Lib) (t : Obj)
    (hk : ifaceIs (t.lookup "kind") "SCALAR" = true) :
    typeString L t =
      match assertString (t.lookup "name") with
      | Except.ok name => Except.ok ("*" ++ scalarTypeString L name)
      | Except.error e => Except.error e := by
  rw [typeString]
  simp only [hk, if_true]

/-- The `ENUM` branch. -/
theorem typeString_enum_eq (L : Lib) (t : Obj)
    (hk : ifaceIs (t.lookup "kind") "ENUM" = true) :
    typeString L t =
      match assertString (t.lookup "name") with
      | Except.ok name => Except.ok ("*" ++ enumTypeString L name)
      | Except.error e => Except.error e := by
  have hs : ifaceIs (t.lookup "kind") "SCALAR" = false :=
    ifaceIs_excl _ _ _ hk (by decide)
  have hn : ifaceIs (t.lookup "kind") "NON_NULL" = false :=
    ifaceIs_excl _ _ _ hk (by decide)
  have hl : ifaceIs (t.lookup "kind") "LIST" = false :=
    ifaceIs_excl _ _ _ hk (by decide)
  rw [typeString]
  simp only [hs, hn, hl, hk, if_true, Bool.false_eq_true, if_false]

/-- The code after the `switch`, reached from `INPUT_OBJECT`, `OBJECT` and
`default`. -/
theorem typeString_default_eq (L : Lib) (t : Obj)
    (hs : ifaceIs (t.lookup "kind") "SCALAR" = false)
    (hn : ifaceIs (t.lookup "kind") "NON_NULL" = false)
    (hl : ifaceIs (t.lookup "kind") "LIST" = false)
    (he : ifaceIs (t.lookup "kind") "ENUM" = false) :
    typeString L t =
      match assertString (t.lookup "name") with
      | Except.ok name => Except.ok ("*" ++ identifier L name)
      | Except.error e => Except.error e := by
  rw [typeString]
  simp only [hs, hn, hl, he, Bool.false_eq_true, if_false]

/-- The type assertion to `string` succeeds exactly on a string entry. -/
theorem assertString_ok (v : Option Value) (name : String)
    (h : assertString v = Except.ok name) : v = some (Value.str name) := by
  unfold assertString at h
  split at h
  · cases h
    rfl
  · cases h

/-- The type assertion to `string` panics on a missing entry. -/
theorem assertString_none : assertString none = Except.error Panic.typeAssertion := rfl

/-- On a node that is not `NON_NULL`, a result is the marker followed by a
tail: the mapped scalar, the list syntax around the inner result, the enum
type name, or the identifier. -/
theorem typeString_shape (L : Lib) (t : Obj) (s : String)
    (h : typeString L t = Except.ok s)
    (hn : ifaceIs (t.lookup "kind") "NON_NULL" = false) :
    (ifaceIs (t.lookup "kind") "SCALAR" = true ∧
      ∃ name, t.lookup "name" = some (Value.str name) ∧
        s = "*" ++ scalarTypeString L name) ∨
    (ifaceIs (t.lookup "kind") "LIST" = true ∧
      ∃ inner r, t.lookup "ofType" = some (Value.object inner) ∧
        typeString L inner = Except.ok r ∧ s = "*[]" ++ r) ∨
    (ifaceIs (t.lookup "kind") "ENUM" = true ∧
      ∃ name, t.lookup "name" = some (Value.str name) ∧
        s = "*" ++ enumTypeString L name) ∨
    (ifaceIs (t.lookup "kind") "SCALAR" = false ∧
      ifaceIs (t.lookup "kind") "LIST" = false ∧
      ifaceIs (t.lookup "kind") "ENUM" = false ∧
      ∃ name, t.lookup "name" = some (Value.str name) ∧
        s = "*" ++ identifier L name) := by
  by_cases hs : ifaceIs (t.lookup "kind") "SCALAR" = true
  · left
    refine ⟨hs, ?_⟩
    rw [typeString_scalar_eq L t hs] at h
    split at h
    · rename_i name hname
      cases h
      exact ⟨name, assertString_ok _ _ hname, rfl⟩
    · cases h
  · have hs : ifaceIs (t.lookup "kind") "SCALAR" = false := by simpa using hs
    by_cases hl : ifaceIs (t.lookup "kind") "LIST" = true
    · right; left
      refine ⟨hl, ?_⟩
      by_cases ho : ∃ inner, t.lookup "ofType" = some (Value.object inner)
      · obtain ⟨inner, ho⟩ := ho
        rw [typeString_list_eq L t inner hl ho] at h
        split at h
        · rename_i r hr
          cases h
          exact ⟨inner, r, ho, hr, rfl⟩
        · cases h
      · have ho : ∀ inner, t.lookup "ofType" ≠ some (Value.object inner) :=
          fun inner hi => ho ⟨inner, hi⟩
        rw [typeString_wrapper_no_ofType L t (Or.inr hl) ho] at h
        cases h
    · have hl : ifaceIs (t.lookup "kind") "LIST" = false := by simpa using hl
      by_cases he : ifaceIs (t.lookup "kind") "ENUM" = true
      · right; right; left
        refine ⟨he, ?_⟩
        rw [typeString_enum_eq L t he] at h
        split at h
        · rename_i name hname
          cases h
          exact ⟨name, assertString_ok _ _ hname, rfl⟩
        · cases h
      · have he : ifaceIs (t.lookup "kind") "ENUM" = false := by simpa using he
        right; right; right
        refine ⟨hs, hl, he, ?_⟩
        rw [typeString_default_eq L t hs hn hl he] at h
        split at h
        · rename_i name hname
          cases h
          exact ⟨name, assertString_ok _ _ hname, rfl⟩
        · cases h

/-- On a `NON_NULL` node, a result is the inner result without its marker. -/
theorem typeString_nonNull_shape (L : Lib) (t : Obj) (s : String)
    (h : typeString L t = Except.ok s)
    (hn : ifaceIs (t.lookup "kind") "NON_NULL" = true) :
    ∃ inner r, t.lookup "ofType" = some (Value.object inner) ∧
      typeString L inner = Except.ok r ∧ hasStar r = true ∧ s = dropFirst r := by
  by_cases ho : ∃ inner, t.lookup "ofType" = some (Value.object inner)
  · obtain ⟨inner, ho⟩ := ho
    rw [typeString_nonNull_eq L t inner hn ho] at h
    split at h
    · rename_i r hr
      by_cases hstar : hasStar r = true
      · rw [if_pos hstar] at h
        cases h
        exact ⟨inner, r, ho, hr, hstar, rfl⟩
      · rw [if_neg hstar] at h
        cases h
    · cases h
  · have ho : ∀ inner, t.lookup "ofType" ≠ some (Value.object inner) :=
      fun inner hi => ho ⟨inner, hi⟩
    rw [typeString_wrapper_no_ofType L t (Or.inl hn) ho] at h
    cases h

/-! ## The type resolver: wrappers and named kinds -/

/-- C1. When `typeString` returns `s` on a node `N`, on the node
`{kind: "NON_NULL", ofType: N}` it returns `s` without its first byte if `s`
starts with the marker `*` (and `s` is that marker followed by the result),
and it panics with the "doesn't begin with '*'" error if `s` does not start
with the marker. -/
theorem typeString_nonNull_strips_marker (L : Lib) (N : Obj) (s : String)
    (hN : typeString L N = Except.ok s) :
    (hasStar s = true →
      typeString L (nonNullOf N) = Except.ok (dropFirst s) ∧
        s = "*" ++ dropFirst s) ∧
    (hasStar s = false →
      typeString L (nonNullOf N) = Except.error (Panic.notNullable s)) := by
  have hu : typeString L (nonNullOf N) =
      if hasStar s then Except.ok (dropFirst s)
      else Except.error (Panic.notNullable s) := by
    rw [typeString_nonNull_eq L (nonNullOf N) N (by simp [nonNullOf, List.lookup, ifaceIs]) (by simp [nonNullOf, List.lookup]), hN]
  constructor
  · intro h
    exact ⟨by rw [hu, if_pos h], eq_star_append_dropFirst s h⟩
  · intro h
    rw [hu]
    simp [h]

/-- C1, instance: the nullable scalar `*string` loses its marker under one
`NON_NULL`, and a second `NON_NULL` around it panics. -/
theorem typeString_nonNull_strips_marker_witness :
    typeString plainLib (named "SCALAR" "String") = Except.ok "*string" ∧
    typeString plainLib (nonNullOf (named "SCALAR" "String")) = Except.ok "string" ∧
    typeString plainLib (nonNullOf (nonNullOf (named "SCALAR" "String")))
      = Except.error (Panic.notNullable "string") := by
  have h0 : typeString plainLib (named "SCALAR" "String") = Except.ok "*string" := by
    rw [typeString_scalar_eq plainLib _ (by decide)]
    rfl
  have h1 := (typeString_nonNull_strips_marker plainLib _ _ h0).1 (by decide)
  have h1a : typeString plainLib (nonNullOf (named "SCALAR" "String")) = Except.ok "string" := by
    rw [h1.1]
    rfl
  have h2 := (typeString_nonNull_strips_marker plainLib _ _ h1a).2 (by decide)
  exact ⟨h0, h1a, h2⟩

/-- C2. When `typeString` returns `s` on a node `N`, on the node
`{kind: "LIST", ofType: N}` it returns `"*[]"` followed by `s` unchanged. -/
theorem typeString_list_wraps (L : Lib) (N : Obj) (s : String)
    (hN : typeString L N = Except.ok s) :
    typeString L (listOf N) = Except.ok ("*[]" ++ s) := by
  rw [typeString_list_eq L (listOf N) N (by simp [listOf, List.lookup, ifaceIs]) (by simp [listOf, List.lookup]), hN]

/-- C2, instance: a list of nullable strings. -/
theorem typeString_list_wraps_witness :
    typeString plainLib (named "SCALAR" "String") = Except.ok "*string" ∧
    typeString plainLib (listOf (named "SCALAR" "String")) = Except.ok "*[]*string" := by
  have h0 : typeString plainLib (named "SCALAR" "String") = Except.ok "*string" := by
    rw [typeString_scalar_eq plainLib _ (by decide)]
    rfl
  exact ⟨h0, typeString_list_wraps plainLib _ _ h0⟩

/-- C3. On `{kind: "NON_NULL", ofType: {kind: "LIST", ofType: {kind: "SCALAR",
name: "String"}}}` the resolver returns `[]*string`, whatever the imported
functions are. -/
theorem typeString_nonNull_list_string (L : Lib) :
    typeString L (nonNullOf (listOf (named "SCALAR" "String"))) = Except.ok "[]*string" := by
  have h0 : typeString L (named "SCALAR" "String") = Except.ok "*string" := by
    rw [typeString_scalar_eq L _ (by decide)]
    simp [named, List.lookup, assertString, scalarTypeString, toLower, lowerRune]
  have h1 : typeString L (listOf (named "SCALAR" "String")) = Except.ok "*[]*string" := by
    rw [typeString_list_eq L _ (named "SCALAR" "String") (by decide)
      (by simp [listOf, List.lookup]), h0]
    rfl
  rw [typeString_nonNull_eq L _ (listOf (named "SCALAR" "String")) (by decide)
    (by simp [nonNullOf, List.lookup]), h1]
  rfl

/-- C4. A result of `typeString` on a node whose kind is not `NON_NULL` starts
with the marker `*`: on `SCALAR` it is `*` followed by `scalarType` of the
name, on `ENUM` it is `*` followed by `enumType` of the name, and on a kind
other than `SCALAR`, `LIST` and `ENUM` it is `*` followed by `identifier` of
the name. -/
theorem typeString_nullable_marker (L : Lib) (t : Obj) (s : String)
    (h : typeString L t = Except.ok s)
    (hn : ifaceIs (t.lookup "kind") "NON_NULL" = false) :
    hasStar s = true ∧
    (ifaceIs (t.lookup "kind") "SCALAR" = true →
      ∃ name, t.lookup "name" = some (Value.str name) ∧
        s = "*" ++ scalarTypeString L name) ∧
    (ifaceIs (t.lookup "kind") "ENUM" = true →
      ∃ name, t.lookup "name" = some (Value.str name) ∧
        s = "*" ++ enumTypeString L name) ∧
    (ifaceIs (t.lookup "kind") "SCALAR" = false →
      ifaceIs (t.lookup "kind") "LIST" = false →
      ifaceIs (t.lookup "kind") "ENUM" = false →
      ∃ name, t.lookup "name" = some (Value.str name) ∧
        s = "*" ++ identifier L name) := by
  rcases typeString_shape L t s h hn with
    ⟨hs, name, hname, rfl⟩ | ⟨hl, inner, r, _, _, rfl⟩ | ⟨he, name, hname, rfl⟩ |
    ⟨hs, hl, he, name, hname, rfl⟩
  · refine ⟨hasStar_star_append _, fun _ => ⟨name, hname, rfl⟩, ?_, ?_⟩
    · intro he
      rw [ifaceIs_excl _ _ _ hs (by decide)] at he
      cases he
    · intro hs2
      rw [hs] at hs2
      cases hs2
  · refine ⟨by simp [hasStar], ?_, ?_, ?_⟩
    · intro hs
      rw [ifaceIs_excl _ _ _ hl (by decide)] at hs
      cases hs
    · intro he
      rw [ifaceIs_excl _ _ _ hl (by decide)] at he
      cases he
    · intro _ hl2
      rw [hl] at hl2
      cases hl2
  · refine ⟨hasStar_star_append _, ?_, fun _ => ⟨name, hname, rfl⟩, ?_⟩
    · intro hs
      rw [ifaceIs_excl _ _ _ he (by decide)] at hs
      cases hs
    · intro _ _ he2
      rw [he] at he2
      cases he2
  · refine ⟨hasStar_star_append _, ?_, ?_, fun _ _ _ => ⟨name, hname, rfl⟩⟩
    · intro hs2
      rw [hs] at hs2
      cases hs2
    · intro he2
      rw [he] at he2
      cases he2

/-- C4, instance: an `OBJECT` node named `FOO_BAR`. -/
theorem typeString_nullable_marker_witness :
    typeString plainLib (named "OBJECT" "FOO_BAR") = Except.ok "*FooBar" ∧
    hasStar "*FooBar" = true := by
  have h0 : typeString plainLib (named "OBJECT" "FOO_BAR") = Except.ok "*FooBar" := by
    rw [typeString_default_eq plainLib _ (by decide) (by decide) (by decide) (by decide)]
    rfl
  exact ⟨h0, (typeString_nullable_marker plainLib _ _ h0 (by decide)).1⟩

/-- C5, counterexample: a node with no "kind" entry and a string name is not
rejected; the `switch` falls to `default` and the node is resolved like any
other named kind. -/
theorem typeString_missing_kind_resolves :
    List.lookup "kind" [("name", Value.str "Foo")] = none ∧
    (∀ L : Lib, typeString L [("name", Value.str "Foo")]
      = Except.ok ("*" ++ identifier L "Foo")) ∧
    typeString plainLib [("name", Value.str "Foo")] = Except.ok "*Foo" := by
  have h : ∀ L : Lib, typeString L [("name", Value.str "Foo")]
      = Except.ok ("*" ++ identifier L "Foo") := by
    intro L
    rw [typeString_default_eq L _ (by decide) (by decide) (by decide) (by decide)]
    rfl
  refine ⟨rfl, h, ?_⟩
  rw [h plainLib]
  rfl

/-- C5, amended. The resolver panics on the type assertion when a `NON_NULL`
or `LIST` node has no "ofType" entry and when a node that is neither (a node
with no "kind" entry included) has no "name" entry; a node with no "kind"
entry that has a string name is resolved to `*` followed by `identifier` of
the name. -/
theorem typeString_missing_field (L : Lib) (t : Obj) :
    ((ifaceIs (t.lookup "kind") "NON_NULL" = true ∨
        ifaceIs (t.lookup "kind") "LIST" = true) →
      t.lookup "ofType" = none →
      typeString L t = Except.error Panic.typeAssertion) ∧
    (ifaceIs (t.lookup "kind") "NON_NULL" = false →
      ifaceIs (t.lookup "kind") "LIST" = false →
      t.lookup "name" = none →
      typeString L t = Except.error Panic.typeAssertion) ∧
    (t.lookup "kind" = none → ∀ name, t.lookup "name" = some (Value.str name) →
      typeString L t = Except.ok ("*" ++ identifier L name)) := by
  refine ⟨?_, ?_, ?_⟩
  · intro hk ho
    apply typeString_wrapper_no_ofType L t hk
    intro inner hi
    rw [ho] at hi
    cases hi
  · intro hn hl hname
    by_cases hs : ifaceIs (t.lookup "kind") "SCALAR" = true
    · rw [typeString_scalar_eq L t hs, hname]
      rfl
    · have hs : ifaceIs (t.lookup "kind") "SCALAR" = false := by simpa using hs
      by_cases he : ifaceIs (t.lookup "kind") "ENUM" = true
      · rw [typeString_enum_eq L t he, hname]
        rfl
      · have he : ifaceIs (t.lookup "kind") "ENUM" = false := by simpa using he
        rw [typeString_default_eq L t hs hn hl he, hname]
        rfl
  · intro hk name hname
    rw [typeString_default_eq L t (by rw [hk]; rfl) (by rw [hk]; rfl)
      (by rw [hk]; rfl) (by rw [hk]; rfl), hname]
    rfl

/-- C5, instances: a `LIST` without "ofType", an `OBJECT` without "name" and
the empty map all panic. -/
theorem typeString_missing_field_witness :
    typeString plainLib [("kind", Value.str "LIST")] = Except.error Panic.typeAssertion ∧
    typeString plainLib [("kind", Value.str "OBJECT")] = Except.error Panic.typeAssertion ∧
    typeString plainLib [] = Except.error Panic.typeAssertion :=
  ⟨(typeString_missing_field plainLib [("kind", Value.str "LIST")]).1
      (Or.inr (by decide)) rfl,
   (typeString_missing_field plainLib [("kind", Value.str "OBJECT")]).2.1
      (by decide) (by decide) rfl,
   (typeString_missing_field plainLib []).2.1 (by decide) (by decide) rfl⟩

/-! ## The scalar table -/

/-- One step of a lookup in an association list with string keys. -/
theorem lookup_cons_ite {β : Type} (k k1 : String) (v : β) (rest : List (String × β)) :
    List.lookup k ((k1, v) :: rest) = if k = k1 then some v else List.lookup k rest := by
  by_cases h : k = k1
  · subst h
    simp [List.lookup]
  · have : (k == k1) = false := by simpa using h
    simp [List.lookup, this, h]

/-- The table lookup written as the chain of comparisons of the `switch`. -/
theorem scalarTable_lookup (tn : String) :
    scalarTable.lookup tn =
      if tn = "order_by" then some "string"
      else if tn = "time" then some "time.Time"
      else if tn = "timestamp" then some "time.Time"
      else if tn = "timestamptz" then some "time.Time"
      else if tn = "date" then some "time.Time"
      else if tn = "datetime" then some "time.Time"
      else if tn = "uuid" then some "uuid.UUID"
      else if tn = "id" then some "string"
      else if tn = "string" then some "string"
      else if tn = "boolean" then some "bool"
      else if tn = "float" then some "float64"
      else if tn = "integer" then some "time.Time"
      else if tn = "int" then some "int32"
      else if tn = "json" then some "map[string]interface\x7b\x7d"
      else if tn = "jsonb" then some "map[string]interface\x7b\x7d"
      else none := by
  unfold scalarTable
  simp only [lookup_cons_ite, List.lookup_nil]

/-- One case of a `switch` against one entry of a table. -/
theorem ite_getD_step (c : Prop) [Decidable c] (a x d : String) (y : Option String)
    (h : x = y.getD d) :
    (if c then a else x) = (if c then some a else y).getD d := by
  by_cases hc : c
  · rw [if_pos hc, if_pos hc]
    rfl
  · rw [if_neg hc, if_neg hc]
    exact h

/-- The `switch` of `scalarTypeString` read as a table lookup on the
lower-cased name, with `scalarIdentifier` of the name as given for a miss. -/
theorem scalarTypeString_eq_lookup (L : Lib) (g : String) :
    scalarTypeString L g =
      (scalarTable.lookup (toLower L g)).getD (scalarIdentifier L g) := by
  rw [scalarTable_lookup]
  unfold scalarTypeString
  generalize toLower L g = tn
  show (if tn = "order_by" then "string" else _) = _
  repeat (refine ite_getD_step _ _ _ _ _ ?_)
  rfl

/-- A successful lookup returns the value of an entry of the list. -/
theorem mem_of_lookup {β : Type} (k : String) (v : β) (l : List (String × β))
    (h : l.lookup k = some v) : (k, v) ∈ l := by
  induction l with
  | nil => simp [List.lookup] at h
  | cons p rest ih =>
    obtain ⟨k1, v1⟩ := p
    rw [lookup_cons_ite] at h
    by_cases hk : k = k1
    · rw [if_pos hk] at h
      cases h
      subst hk
      exact List.mem_cons_self _ _
    · rw [if_neg hk] at h
      exact List.mem_cons_of_mem _ (ih h)

/-- Every token of the table is non-empty and does not start with the marker. -/
theorem scalarTable_token (k token : String)
    (h : scalarTable.lookup k = some token) : token ≠ "" ∧ hasStar token = false := by
  have hall : ∀ p ∈ scalarTable, p.2 ≠ "" ∧ hasStar p.2 = false := by decide
  exact hall (k, token) (mem_of_lookup k token scalarTable h)

/-! ## Non-empty results -/

/-- C6, counterexample: two `NON_NULL` wrappers around an `OBJECT` named `*`
resolve to the empty string: the object gives `**`, each wrapper finds a
leading marker and strips it. -/
theorem typeString_empty_result :
    typeString plainLib (named "OBJECT" "*") = Except.ok "**" ∧
    typeString plainLib (nonNullOf (named "OBJECT" "*")) = Except.ok "*" ∧
    typeString plainLib (nonNullOf (nonNullOf (named "OBJECT" "*"))) = Except.ok "" := by
  have h0 : typeString plainLib (named "OBJECT" "*") = Except.ok "**" := by
    rw [typeString_default_eq plainLib _ (by decide) (by decide) (by decide) (by decide)]
    rfl
  have h1 : typeString plainLib (nonNullOf (named "OBJECT" "*")) = Except.ok "*" := by
    rw [typeString_nonNull_eq plainLib (nonNullOf (named "OBJECT" "*")) (named "OBJECT" "*")
      (by decide) rfl, h0]
    rfl
  refine ⟨h0, h1, ?_⟩
  rw [typeString_nonNull_eq plainLib (nonNullOf (nonNullOf (named "OBJECT" "*")))
    (nonNullOf (named "OBJECT" "*")) (by decide) rfl, h1]
  rfl

/-- C6, amended. A result of `typeString` is empty exactly when the node is
a `NON_NULL` whose "ofType" node resolves to the bare marker `*`; on a node
that is not `NON_NULL` the result is never empty. -/
theorem typeString_empty_iff (L : Lib) (t : Obj) (s : String)
    (h : typeString L t = Except.ok s) :
    (s = "" ↔
      ifaceIs (t.lookup "kind") "NON_NULL" = true ∧
        ∃ inner, t.lookup "ofType" = some (Value.object inner) ∧
          typeString L inner = Except.ok "*") ∧
    (ifaceIs (t.lookup "kind") "NON_NULL" = false → s ≠ "") := by
  have hnot : ifaceIs (t.lookup "kind") "NON_NULL" = false → s ≠ "" := by
    intro hn
    have hstar : hasStar s = true := by
      rcases typeString_shape L t s h hn with
        ⟨_, name, _, rfl⟩ | ⟨_, inner2, r2, _, _, rfl⟩ | ⟨_, name, _, rfl⟩ |
        ⟨_, _, _, name, _, rfl⟩
      · exact hasStar_star_append _
      · simp [hasStar]
      · exact hasStar_star_append _
      · exact hasStar_star_append _
    exact ne_empty_of_hasStar s hstar
  refine ⟨⟨?_, ?_⟩, hnot⟩
  · intro hs
    by_cases hn : ifaceIs (t.lookup "kind") "NON_NULL" = true
    · obtain ⟨inner, r, ho, hr, hstar, hdrop⟩ := typeString_nonNull_shape L t s h hn
      refine ⟨hn, inner, ho, ?_⟩
      have hr2 : r = "*" := by
        rw [eq_star_append_dropFirst r hstar, ← hdrop, hs]
        rfl
      rw [hr, hr2]
    · have hn : ifaceIs (t.lookup "kind") "NON_NULL" = false := by simpa using hn
      exact absurd hs (hnot hn)
  · rintro ⟨hn, inner, ho, hin⟩
    rw [typeString_nonNull_eq L t inner hn ho, hin] at h
    have hs : Except.ok (dropFirst "*") = (Except.ok s : Except Panic String) := h
    have := Except.ok.inj hs
    rw [← this]
    rfl

/-- C6, instances: a non-null object named `FOO_BAR` resolves to `FooBar`,
so its inner node does not resolve to the bare marker; the doubly non-null
object named `*` resolves to the empty string, so its inner node does. -/
theorem typeString_empty_iff_witness :
    typeString plainLib (nonNullOf (named "OBJECT" "FOO_BAR")) = Except.ok "FooBar" ∧
    typeString plainLib (named "OBJECT" "FOO_BAR") ≠ Except.ok "*" ∧
    typeString plainLib (nonNullOf (nonNullOf (named "OBJECT" "*"))) = Except.ok "" ∧
    typeString plainLib (nonNullOf (named "OBJECT" "*")) = Except.ok "*" := by
  have h1 : typeString plainLib (nonNullOf (named "OBJECT" "FOO_BAR")) = Except.ok "FooBar" := by
    rw [typeString_nonNull_eq plainLib (nonNullOf (named "OBJECT" "FOO_BAR"))
      (named "OBJECT" "FOO_BAR") (by decide) rfl,
      typeString_default_eq plainLib (named "OBJECT" "FOO_BAR")
        (by decide) (by decide) (by decide) (by decide)]
    rfl
  have h0 : typeString plainLib (named "OBJECT" "*") = Except.ok "**" := by
    rw [typeString_default_eq plainLib _ (by decide) (by decide) (by decide) (by decide)]
    rfl
  have h2 : typeString plainLib (nonNullOf (named "OBJECT" "*")) = Except.ok "*" := by
    rw [typeString_nonNull_eq plainLib (nonNullOf (named "OBJECT" "*")) (named "OBJECT" "*")
      (by decide) rfl, h0]
    rfl
  have h3 : typeString plainLib (nonNullOf (nonNullOf (named "OBJECT" "*"))) = Except.ok "" := by
    rw [typeString_nonNull_eq plainLib (nonNullOf (nonNullOf (named "OBJECT" "*")))
      (nonNullOf (named "OBJECT" "*")) (by decide) rfl, h2]
    rfl
  refine ⟨h1, ?_, h3, ?_⟩
  · intro hin
    have hiff := (typeString_empty_iff plainLib _ _ h1).1
    exact absurd (hiff.mpr ⟨by decide, _, rfl, hin⟩) (by decide)
  · obtain ⟨_, inner, ho, hin⟩ := (typeString_empty_iff plainLib _ _ h3).1.mp rfl
    cases ho
    exact hin

/-! ## The scalar type mapper -/

/-- C7. The mapper returns, on each name of the table, the token of the
table: `string` for `order_by`, `id` and `string`; `time.Time` for `time`,
`timestamp`, `timestamptz`, `date`, `datetime` and also for `integer`;
`uuid.UUID` for `uuid`; `bool` for `boolean`; `float64` for `float`; `int32`
for `int`; `map[string]interface{}` for `json` and `jsonb`. -/
theorem scalarTypeString_table (L : Lib) :
    scalarTypeString L "order_by" = "string" ∧
    scalarTypeString L "id" = "string" ∧
    scalarTypeString L "string" = "string" ∧
    scalarTypeString L "time" = "time.Time" ∧
    scalarTypeString L "timestamp" = "time.Time" ∧
    scalarTypeString L "timestamptz" = "time.Time" ∧
    scalarTypeString L "date" = "time.Time" ∧
    scalarTypeString L "datetime" = "time.Time" ∧
    scalarTypeString L "uuid" = "uuid.UUID" ∧
    scalarTypeString L "boolean" = "bool" ∧
    scalarTypeString L "float" = "float64" ∧
    scalarTypeString L "int" = "int32" ∧
    scalarTypeString L "json" = "map[string]interface\x7b\x7d" ∧
    scalarTypeString L "jsonb" = "map[string]interface\x7b\x7d" ∧
    scalarTypeString L "integer" = "time.Time" := by
  refine ⟨?_, ?_, ?_, ?_, ?_, ?_, ?_, ?_, ?_, ?_, ?_, ?_, ?_, ?_, ?_⟩ <;> rfl

/-- C8, counterexample: the Kelvin sign and `k` are equal after lower-casing
and neither is in the table, so each is handed as given to
`scalarIdentifier`, which keeps the Kelvin sign and capitalises `k`. -/
theorem scalarTypeString_case_sensitive_miss :
    toLower kelvinLib "\u212A" = toLower kelvinLib "k" ∧
    scalarTypeString kelvinLib "\u212A" = "\u212A" ∧
    scalarTypeString kelvinLib "k" = "K" ∧
    scalarTypeString kelvinLib "\u212A" ≠ scalarTypeString kelvinLib "k" := by
  refine ⟨?_, ?_, ?_, ?_⟩ <;> decide

/-- C8, amended. For two names that are equal after lower-casing: when the
lower-cased form is in the table both get the token of the table, whatever
their casing (so `INT` and `int` both give `int32`); when it is not, each gets
`scalarIdentifier` of the name as given, so the two results agree exactly when
the conversions of the two names do. -/
theorem scalarTypeString_lower_eq (L : Lib) (a b : String)
    (h : toLower L a = toLower L b) :
    (∀ token, scalarTable.lookup (toLower L a) = some token →
      scalarTypeString L a = token ∧ scalarTypeString L b = token) ∧
    (scalarTable.lookup (toLower L a) = none →
      scalarTypeString L a = scalarIdentifier L a ∧
      scalarTypeString L b = scalarIdentifier L b) ∧
    scalarTypeString L "INT" = "int32" ∧ scalarTypeString L "int" = "int32" := by
  refine ⟨?_, ?_, rfl, rfl⟩
  · intro token ht
    constructor
    · rw [scalarTypeString_eq_lookup, ht]
      rfl
    · rw [scalarTypeString_eq_lookup, ← h, ht]
      rfl
  · intro hm
    constructor
    · rw [scalarTypeString_eq_lookup, hm]
      rfl
    · rw [scalarTypeString_eq_lookup, ← h, hm]
      rfl

/-- C8, instance: `Boolean` and `BOOLEAN`. -/
theorem scalarTypeString_lower_eq_witness :
    scalarTypeString plainLib "Boolean" = "bool" ∧
    scalarTypeString plainLib "BOOLEAN" = "bool" :=
  (scalarTypeString_lower_eq plainLib "Boolean" "BOOLEAN" (by decide)).1 "bool" (by decide)

/-- C9, counterexample: `_foo` is not in the table, and the mapper hands it
with its underscore to `scalarIdentifier`, whereas `identifier` converts
`foo`. -/
theorem scalarTypeString_keeps_underscore :
    scalarTable.lookup (toLower plainLib "_foo") = none ∧
    scalarTypeString plainLib "_foo" = "\uFFFDFoo" ∧
    identifier plainLib "_foo" = "Foo" ∧
    scalarTypeString plainLib "_foo" ≠ identifier plainLib "_foo" := by
  refine ⟨?_, ?_, ?_, ?_⟩ <;> decide

/-- C9, amended. For a name whose lower-cased form is not in the table the
mapper returns `scalarIdentifier` of the name, the MixedCaps conversion
without the strip of leading underscores; this is `identifier` of the name
whenever the name has no leading underscore. -/
theorem scalarTypeString_miss (L : Lib) (s : String)
    (h : scalarTable.lookup (toLower L s) = none) :
    scalarTypeString L s = scalarIdentifier L s ∧
    (trimLeftUnderscore s = s → scalarTypeString L s = identifier L s) := by
  have h1 : scalarTypeString L s = scalarIdentifier L s := by
    rw [scalarTypeString_eq_lookup, h]
    rfl
  refine ⟨h1, ?_⟩
  intro ht
  rw [h1, identifier, ht, scalarIdentifier]

/-- C9, instance: the custom scalar `citext`. -/
theorem scalarTypeString_miss_witness :
    scalarTypeString plainLib "citext" = scalarIdentifier plainLib "citext" ∧
    scalarTypeString plainLib "citext" = identifier plainLib "citext" :=
  have h := scalarTypeString_miss plainLib "citext" (by decide)
  ⟨h.1, h.2 (by decide)⟩

/-! ## Identifiers -/

/-- Trimming removes a run of underscores and stops at another rune. -/
theorem trimLeftUnderscore_spec (s : String) :
    (∃ k, s.data = List.replicate k '_' ++ (trimLeftUnderscore s).data) ∧
    (trimLeftUnderscore s).data.head? ≠ some '_' := by
  unfold trimLeftUnderscore
  simp only
  induction s.data with
  | nil => exact ⟨⟨0, rfl⟩, by simp⟩
  | cons c rest ih =>
    by_cases hc : c = '_'
    · subst hc
      obtain ⟨⟨k, hk⟩, hh⟩ := ih
      refine ⟨⟨k + 1, ?_⟩, ?_⟩
      · simp only [List.dropWhile_cons, beq_self_eq_true, if_true, List.replicate_succ,
          List.cons_append]
        rw [← hk]
      · simpa [List.dropWhile_cons] using hh
    · have hb : (c == '_') = false := by simpa using hc
      refine ⟨⟨0, ?_⟩, ?_⟩
      · simp [List.dropWhile_cons, hb]
      · simp [List.dropWhile_cons, hb, hc]

/-- C10. The closure `identifier` is a total function of its string: it
returns `scalarIdentifier` of the string without its leading underscores (a
run of `_` is removed and what is left does not start with `_`), the empty
string is handed unchanged to the conversion, and `enumType` is `identifier`;
with the conversion turning `FOO_BAR` into `FooBar`, `identifier` turns
`__FOO_BAR` into `FooBar`. -/
theorem identifier_spec (L : Lib) (s : String)
    (hfoo : L.toMixedCaps "FOO_BAR" = "FooBar") :
    identifier L s = scalarIdentifier L (trimLeftUnderscore s) ∧
    (∃ k, s.data = List.replicate k '_' ++ (trimLeftUnderscore s).data) ∧
    (trimLeftUnderscore s).data.head? ≠ some '_' ∧
    identifier L "" = scalarIdentifier L "" ∧
    enumTypeString L s = identifier L s ∧
    identifier L "__FOO_BAR" = "FooBar" := by
  refine ⟨rfl, (trimLeftUnderscore_spec s).1, (trimLeftUnderscore_spec s).2, rfl, rfl, ?_⟩
  have ht : trimLeftUnderscore "__FOO_BAR" = "FOO_BAR" := by decide
  rw [identifier, ht, hfoo]

/-- C10, instance: with the conversion of `plainLib`. -/
theorem identifier_spec_witness :
    plainLib.toMixedCaps "FOO_BAR" = "FooBar" ∧
    identifier plainLib "__FOO_BAR" = "FooBar" ∧
    enumTypeString plainLib "__FOO_BAR" = "FooBar" := by
  have h := identifier_spec plainLib "__FOO_BAR" (by decide)
  refine ⟨by decide, h.2.2.2.2.2, ?_⟩
  rw [h.2.2.2.2.1]
  exact h.2.2.2.2.2

/-! ## Filter-by and Extract-field -/

/-- On maps whose entry under the field is a string or absent, `filterBy`
keeps the elements that carry the value, in order. -/
theorem filterBy_eq_filter (field value : String) (c : List Value)
    (h : ∀ e ∈ c, StringField field e) :
    filterBy field value c
      = Except.ok (c.filter fun e => fieldOf field e == some value) := by
  induction c with
  | nil => rfl
  | cons e rest ih =>
    have ih := ih (fun x hx => h x (List.mem_cons_of_mem _ hx))
    obtain ⟨m, rfl, hm⟩ := h e (List.mem_cons_self _ _)
    rcases hm with hm | ⟨s, hm⟩
    · simp [filterBy, fieldOf, hm, ih]
    · by_cases hs : s = value
      · subst hs
        simp [filterBy, fieldOf, hm, ih, assertString, isExcluded]
      · simp [filterBy, fieldOf, hm, ih, assertString, isExcluded, hs]

/-- On maps whose entry under the field is a string or absent, `extractField`
lists the strings of the elements that have the field, in order. -/
theorem extractField_eq_filterMap (field : String) (c : List Value)
    (h : ∀ e ∈ c, StringField field e) :
    extractField field c = Except.ok (c.filterMap (fieldOf field)) := by
  induction c with
  | nil => rfl
  | cons e rest ih =>
    have ih := ih (fun x hx => h x (List.mem_cons_of_mem _ hx))
    obtain ⟨m, rfl, hm⟩ := h e (List.mem_cons_self _ _)
    rcases hm with hm | ⟨s, hm⟩
    · simp [extractField, fieldOf, hm, ih]
    · simp [extractField, fieldOf, hm, ih, assertString]

/-- A map with a string under the field is a map whose entry is a string or
absent. -/
theorem HasString.stringField {field : String} {v : Value} (h : HasString field v) :
    StringField field v := by
  obtain ⟨m, s, rfl, hm⟩ := h
  exact ⟨m, rfl, Or.inr ⟨s, hm⟩⟩

/-- C11. On a collection of maps whose entry under `field` is a string (or
absent), `filterBy` returns exactly the elements that carry `field` with the
value `value`, in their original order: elements without the field are
skipped, the exclusion predicate excludes nothing, and the empty collection
gives the empty sequence. -/
theorem filterBy_spec (field value : String) (c : List Value)
    (h : ∀ e ∈ c, StringField field e) :
    filterBy field value c
      = Except.ok (c.filter fun e => fieldOf field e == some value) ∧
    (c.filter fun e => fieldOf field e == some value).Sublist c ∧
    (∀ s, isExcluded s = false) ∧
    filterBy field value [] = Except.ok [] :=
  ⟨filterBy_eq_filter field value c h, List.filter_sublist _, fun _ => rfl, rfl⟩

/-- C11, instance: two objects around an element without a kind. -/
theorem filterBy_spec_witness :
    filterBy "kind" "OBJECT"
        [element "OBJECT" "B", Value.object [("name", Value.str "X")],
          element "ENUM" "E", element "OBJECT" "A"]
      = Except.ok [element "OBJECT" "B", element "OBJECT" "A"] := by
  have h := (filterBy_spec "kind" "OBJECT"
    [element "OBJECT" "B", Value.object [("name", Value.str "X")],
      element "ENUM" "E", element "OBJECT" "A"] (by
      intro e he
      simp only [List.mem_cons, List.mem_singleton, List.not_mem_nil, or_false] at he
      rcases he with rfl | rfl | rfl | rfl
      · exact ⟨_, rfl, Or.inr ⟨"OBJECT", rfl⟩⟩
      · exact ⟨_, rfl, Or.inl rfl⟩
      · exact ⟨_, rfl, Or.inr ⟨"ENUM", rfl⟩⟩
      · exact ⟨_, rfl, Or.inr ⟨"OBJECT", rfl⟩⟩)).1
  rw [h]
  rfl

/-- C12. On a collection whose elements all have a string kind and a string
name, Extract-field of the names after Filter-by on the kind `K` gives the
names of the elements of kind `K`, in their original order; on a collection
of maps whose entry under `field` is a string (or absent), `extractField`
gives the strings of the elements that have the field, in order, so never
more of them than there are elements. -/
theorem extractField_spec (field K : String) (c d : List Value)
    (hc : ∀ e ∈ c, HasString "kind" e ∧ HasString "name" e)
    (hd : ∀ e ∈ d, StringField field e) :
    (∃ filtered, filterBy "kind" K c = Except.ok filtered ∧
      extractField "name" filtered
        = Except.ok ((c.filter fun e => fieldOf "kind" e == some K).filterMap
            (fieldOf "name")) ∧
      ((c.filter fun e => fieldOf "kind" e == some K).filterMap (fieldOf "name")).length
        = (c.filter fun e => fieldOf "kind" e == some K).length) ∧
    extractField field d = Except.ok (d.filterMap (fieldOf field)) ∧
    (d.filterMap (fieldOf field)).length ≤ d.length := by
  refine ⟨⟨_, filterBy_eq_filter "kind" K c (fun e he => (hc e he).1.stringField), ?_, ?_⟩,
    extractField_eq_filterMap field d hd, List.length_filterMap_le _ _⟩
  · apply extractField_eq_filterMap
    intro e he
    exact (hc e (List.mem_of_mem_filter he)).2.stringField
  · generalize hl : (c.filter fun e => fieldOf "kind" e == some K) = l
    have hall : ∀ e ∈ l, HasString "name" e := by
      intro e he
      rw [← hl] at he
      exact (hc e (List.mem_of_mem_filter he)).2
    clear hl
    induction l with
    | nil => rfl
    | cons e rest ih =>
      obtain ⟨m, s, rfl, hm⟩ := hall e (List.mem_cons_self _ _)
      have ih := ih (fun x hx => hall x (List.mem_cons_of_mem _ hx))
      simp [List.filterMap_cons, fieldOf, hm, ih]

/-- C12, instance: the names of the objects, and a collection in which one
element has no name. -/
theorem extractField_spec_witness :
    (∃ filtered, filterBy "kind" "OBJECT"
        [element "OBJECT" "B", element "ENUM" "E", element "OBJECT" "A"]
          = Except.ok filtered ∧
      extractField "name" filtered = Except.ok ["B", "A"]) ∧
    extractField "name" [element "ENUM" "E", Value.object [("kind", Value.str "ENUM")]]
      = Except.ok ["E"] := by
  have h := extractField_spec "name" "OBJECT"
    [element "OBJECT" "B", element "ENUM" "E", element "OBJECT" "A"]
    [element "ENUM" "E", Value.object [("kind", Value.str "ENUM")]]
    (by
      intro e he
      simp only [List.mem_cons, List.mem_singleton, List.not_mem_nil, or_false] at he
      rcases he with rfl | rfl | rfl
      · exact ⟨⟨_, "OBJECT", rfl, rfl⟩, ⟨_, "B", rfl, rfl⟩⟩
      · exact ⟨⟨_, "ENUM", rfl, rfl⟩, ⟨_, "E", rfl, rfl⟩⟩
      · exact ⟨⟨_, "OBJECT", rfl, rfl⟩, ⟨_, "A", rfl, rfl⟩⟩)
    (by
      intro e he
      simp only [List.mem_cons, List.mem_singleton, List.not_mem_nil, or_false] at he
      rcases he with rfl | rfl
      · exact ⟨_, rfl, Or.inr ⟨"E", rfl⟩⟩
      · exact ⟨_, rfl, Or.inl rfl⟩)
  obtain ⟨⟨filtered, h1, h2, _⟩, h3, _⟩ := h
  refine ⟨⟨filtered, h1, ?_⟩, ?_⟩
  · rw [h2]
    rfl
  · rw [h3]
    rfl

/-! ## Sorting by name -/

/-- The name of an element that has a string name. -/
theorem nameOf_eq_nameKey (v : Value) (h : HasString "name" v) :
    nameOf v = Except.ok (nameKey v) := by
  obtain ⟨m, s, rfl, hm⟩ := h
  simp [nameOf, nameKey, fieldOf, hm, assertString]

/-- On elements with names the ascending comparison compares the names. -/
theorem lessByName_eq (a b : Value) (ha : HasString "name" a) (hb : HasString "name" b) :
    lessByName a b = Except.ok (decide (nameKey a < nameKey b)) := by
  simp [lessByName, nameOf_eq_nameKey a ha, nameOf_eq_nameKey b hb]

/-- On elements with names the descending comparison compares the names. -/
theorem lessByNameRev_eq (a b : Value) (ha : HasString "name" a) (hb : HasString "name" b) :
    lessByNameRev a b = Except.ok (decide (nameKey a > nameKey b)) := by
  simp [lessByNameRev, nameOf_eq_nameKey a ha, nameOf_eq_nameKey b hb]

/-- The result of `sortByName` on elements with names. -/
theorem sortByName_sorted (T : Stdlib) (hT : T.Sorts) (c : List Value)
    (h : ∀ e ∈ c, HasString "name" e) :
    ∃ ys, sortByName T c = Except.ok ys ∧ ys.Perm c ∧
      (ys.map nameKey).Pairwise (fun a b => a ≤ b) := by
  obtain ⟨ys, hys, hperm, hsorted⟩ := hT.slice lessByName
    (fun a b => decide (nameKey a < nameKey b)) c
    (fun a ha b hb => lessByName_eq a b (h a ha) (h b hb))
    (fun a b hab => by
      simp only [decide_eq_true_eq, decide_eq_false_iff_not, not_lt] at hab ⊢
      exact le_of_lt hab)
    (fun a b c hab hbc => by
      simp only [decide_eq_false_iff_not, not_lt] at hab hbc ⊢
      exact le_trans hbc hab)
  refine ⟨ys, hys, hperm, ?_⟩
  rw [List.pairwise_map]
  refine hsorted.imp ?_
  intro a b hab
  simpa using hab

/-- The result of `sortByNameRev` on elements with names. -/
theorem sortByNameRev_sorted (T : Stdlib) (hT : T.Sorts) (c : List Value)
    (h : ∀ e ∈ c, HasString "name" e) :
    ∃ zs, sortByNameRev T c = Except.ok zs ∧ zs.Perm c ∧
      (zs.map nameKey).Pairwise (fun a b => a ≥ b) := by
  obtain ⟨zs, hzs, hperm, hsorted⟩ := hT.slice lessByNameRev
    (fun a b => decide (nameKey a > nameKey b)) c
    (fun a ha b hb => lessByNameRev_eq a b (h a ha) (h b hb))
    (fun a b hab => by
      simp only [gt_iff_lt, decide_eq_true_eq, decide_eq_false_iff_not, not_lt] at hab ⊢
      exact le_of_lt hab)
    (fun a b c hab hbc => by
      simp only [gt_iff_lt, decide_eq_false_iff_not, not_lt] at hab hbc ⊢
      exact le_trans hab hbc)
  refine ⟨zs, hzs, hperm, ?_⟩
  rw [List.pairwise_map]
  refine hsorted.imp ?_
  intro a b hab
  simpa using hab

/-- C13. When the two sorts of the standard library behave as documented and
every element of the collection has a string name, `sortByName` returns a
permutation of the collection whose names are in non-decreasing order and
`sortByNameRev` a permutation whose names are in non-increasing order. -/
theorem sortByName_spec (T : Stdlib) (hT : T.Sorts) (c : List Value)
    (h : ∀ e ∈ c, HasString "name" e) :
    (∃ ys, sortByName T c = Except.ok ys ∧ ys.Perm c ∧
      (ys.map nameKey).Pairwise (fun a b => a ≤ b)) ∧
    (∃ zs, sortByNameRev T c = Except.ok zs ∧ zs.Perm c ∧
      (zs.map nameKey).Pairwise (fun a b => a ≥ b)) :=
  ⟨sortByName_sorted T hT c h, sortByNameRev_sorted T hT c h⟩

/-- C14. When the sorts behave as documented and every element has a string
name, the names in the result of `sortByNameRev` are the names in the result
of `sortByName` in reverse; when the names are pairwise distinct the result
of `sortByNameRev` is the reverse of the result of `sortByName`. -/
theorem sortByNameRev_reverse (T : Stdlib) (hT : T.Sorts) (c : List Value)
    (h : ∀ e ∈ c, HasString "name" e) :
    ∃ ys zs, sortByName T c = Except.ok ys ∧ sortByNameRev T c = Except.ok zs ∧
      zs.map nameKey = (ys.map nameKey).reverse ∧
      ((c.map nameKey).Nodup → zs = ys.reverse) := by
  obtain ⟨ys, hys, hyp, hysorted⟩ := sortByName_sorted T hT c h
  obtain ⟨zs, hzs, hzp, hzsorted⟩ := sortByNameRev_sorted T hT c h
  refine ⟨ys, zs, hys, hzs, ?_, ?_⟩
  · have hrev : (ys.map nameKey).reverse.Pairwise (fun a b => a ≥ b) := by
      rw [List.pairwise_reverse]
      exact hysorted
    have hperm : (zs.map nameKey).Perm (ys.map nameKey).reverse :=
      ((hzp.trans hyp.symm).map nameKey).trans (List.reverse_perm _).symm
    exact List.eq_of_perm_of_sorted hperm hzsorted hrev
  · intro hnodup
    have hzn : (zs.map nameKey).Nodup := (hzp.map nameKey).nodup_iff.mpr hnodup
    have hyn : (ys.map nameKey).Nodup := (hyp.map nameKey).nodup_iff.mpr hnodup
    have hz : zs.Pairwise (fun a b => nameKey a > nameKey b) := by
      have h1 : (zs.map nameKey).Pairwise (fun a b => a > b) :=
        (hzsorted.and hzn).imp (fun hab => lt_of_le_of_ne hab.1 (Ne.symm hab.2))
      exact List.pairwise_map.mp h1
    have hy : ys.reverse.Pairwise (fun a b => nameKey a > nameKey b) := by
      rw [List.pairwise_reverse]
      have h1 : (ys.map nameKey).Pairwise (fun a b => a < b) :=
        (hysorted.and hyn).imp (fun hab => lt_of_le_of_ne hab.1 hab.2)
      exact List.pairwise_map.mp h1
    haveI : IsAntisymm Value (fun a b => nameKey a > nameKey b) :=
      ⟨fun a b hab hba => absurd hab (lt_asymm hba)⟩
    exact List.eq_of_perm_of_sorted
      ((hzp.trans hyp.symm).trans (List.reverse_perm _).symm) hz hy

/-! ## The insertion sorts of `plainStd` -/

/-- Inserting into a list depends on the order only through the comparisons
with the elements of the list. -/
theorem orderedInsert_congr {α : Type} (r q : α → α → Prop) [DecidableRel r]
    [DecidableRel q] (a : α) (l : List α) (h : ∀ b ∈ l, r a b ↔ q a b) :
    l.orderedInsert r a = l.orderedInsert q a := by
  induction l with
  | nil => rfl
  | cons b rest ih =>
    have ih := ih (fun x hx => h x (List.mem_cons_of_mem _ hx))
    have hb := h b (List.mem_cons_self _ _)
    by_cases hr : r a b
    · simp [List.orderedInsert, hr, hb.mp hr]
    · have hq : ¬ q a b := fun hq => hr (hb.mpr hq)
      simp [List.orderedInsert, hr, hq, ih]

/-- Insertion sort depends on the order only through the comparisons between
elements of the list. -/
theorem insertionSort_congr {α : Type} (r q : α → α → Prop) [DecidableRel r]
    [DecidableRel q] (l : List α) (h : ∀ a ∈ l, ∀ b ∈ l, r a b ↔ q a b) :
    l.insertionSort r = l.insertionSort q := by
  induction l with
  | nil => rfl
  | cons a rest ih =>
    have ih := ih (fun x hx y hy =>
      h x (List.mem_cons_of_mem _ hx) y (List.mem_cons_of_mem _ hy))
    simp only [List.insertionSort]
    rw [ih]
    apply orderedInsert_congr
    intro b hb
    have hb : b ∈ rest := (List.perm_insertionSort q rest).mem_iff.mp hb
    exact h a (List.mem_cons_self _ _) b (List.mem_cons_of_mem _ hb)

/-- The comparison of `plainStd` panics nowhere when it agrees with a total
comparison. -/
theorem neverPanics_of_agree (less : Value → Value → Except Panic Bool)
    (lt : Value → Value → Bool) (xs : List Value)
    (h : ∀ a ∈ xs, ∀ b ∈ xs, less a b = Except.ok (lt a b)) :
    neverPanics less xs = true := by
  simp only [neverPanics, List.all_eq_true]
  intro a ha b hb
  rw [h a ha b hb]

/-- The instance `plainStd` sorts as the standard library documents. -/
theorem plainStd_sorts : plainStd.Sorts where
  slice := by
    intro less lt xs hagree hasym hneg
    have hr : xs.insertionSort (fun a b => saidLess less b a = false)
        = xs.insertionSort (fun a b => lt b a = false) := by
      apply insertionSort_congr
      intro a ha b hb
      simp only [saidLess, hagree b hb a ha]
      cases lt b a <;> simp
    refine ⟨xs.insertionSort (fun a b => lt b a = false), ?_, List.perm_insertionSort _ _, ?_⟩
    · simp only [plainStd, neverPanics_of_agree less lt xs hagree, if_true, hr]
    · haveI : IsTotal Value (fun a b => lt b a = false) := ⟨fun a b => by
        cases hba : lt b a
        · exact Or.inl rfl
        · exact Or.inr (hasym b a hba)⟩
      haveI : IsTrans Value (fun a b => lt b a = false) :=
        ⟨fun a b c hab hbc => hneg c b a hbc hab⟩
      exact List.sorted_insertionSort _ xs
  strings_perm := fun xs => List.perm_insertionSort _ xs
  strings_sorted := fun xs => List.sorted_insertionSort (fun a b : String => a ≤ b) xs

/-- C13, instance: three elements out of order. -/
theorem sortByName_spec_witness :
    (∃ ys, sortByName plainStd [element "OBJECT" "b", element "ENUM" "c", element "OBJECT" "a"]
        = Except.ok ys ∧
      ys.Perm [element "OBJECT" "b", element "ENUM" "c", element "OBJECT" "a"] ∧
      (ys.map nameKey).Pairwise (fun a b => a ≤ b)) ∧
    (∃ zs, sortByNameRev plainStd
        [element "OBJECT" "b", element "ENUM" "c", element "OBJECT" "a"] = Except.ok zs ∧
      zs.Perm [element "OBJECT" "b", element "ENUM" "c", element "OBJECT" "a"] ∧
      (zs.map nameKey).Pairwise (fun a b => a ≥ b)) :=
  sortByName_spec plainStd plainStd_sorts
    [element "OBJECT" "b", element "ENUM" "c", element "OBJECT" "a"] (by
      intro e he
      simp only [List.mem_cons, List.mem_singleton, List.not_mem_nil, or_false] at he
      rcases he with rfl | rfl | rfl
      · exact ⟨_, "b", rfl, rfl⟩
      · exact ⟨_, "c", rfl, rfl⟩
      · exact ⟨_, "a", rfl, rfl⟩)

/-- C14, instance: the same three elements, whose names are distinct. -/
theorem sortByNameRev_reverse_witness :
    ∃ ys zs,
      sortByName plainStd [element "OBJECT" "b", element "ENUM" "c", element "OBJECT" "a"]
        = Except.ok ys ∧
      sortByNameRev plainStd [element "OBJECT" "b", element "ENUM" "c", element "OBJECT" "a"]
        = Except.ok zs ∧
      zs.map nameKey = (ys.map nameKey).reverse ∧ zs = ys.reverse := by
  obtain ⟨ys, zs, hy, hz, hn, he⟩ := sortByNameRev_reverse plainStd plainStd_sorts
    [element "OBJECT" "b", element "ENUM" "c", element "OBJECT" "a"] (by
      intro e he
      simp only [List.mem_cons, List.mem_singleton, List.not_mem_nil, or_false] at he
      rcases he with rfl | rfl | rfl
      · exact ⟨_, "b", rfl, rfl⟩
      · exact ⟨_, "c", rfl, rfl⟩
      · exact ⟨_, "a", rfl, rfl⟩)
  exact ⟨ys, zs, hy, hz, hn, he (by decide)⟩

/-! ## Objects and input objects -/

/-- On maps with a string kind, and a string name when the kind is `K`, the
loop of `objects` collects the names of the elements of kind `K`, in order. -/
theorem namesOfKind_eq (K : String) (c : List Value)
    (h : ∀ e ∈ c, ∃ m k, e = Value.object m ∧ m.lookup "kind" = some (Value.str k) ∧
      (k = K → ∃ n, m.lookup "name" = some (Value.str n))) :
    namesOfKind K c
      = Except.ok ((c.filter fun e => fieldOf "kind" e == some K).filterMap
          (fieldOf "name")) := by
  induction c with
  | nil => rfl
  | cons e rest ih =>
    have ih := ih (fun x hx => h x (List.mem_cons_of_mem _ hx))
    obtain ⟨m, k, rfl, hk, hn⟩ := h e (List.mem_cons_self _ _)
    by_cases hkK : k = K
    · obtain ⟨n, hname⟩ := hn hkK
      subst hkK
      simp [namesOfKind, fieldOf, hk, hname, ih, assertString]
    · simp [namesOfKind, fieldOf, hk, ih, assertString, hkK]

/-- The loop of `objects` panics when an element is a map without a kind. -/
theorem namesOfKind_no_kind (K : String) (c : List Value)
    (h : ∃ m, Value.object m ∈ c ∧ m.lookup "kind" = none) :
    namesOfKind K c = Except.error Panic.typeAssertion := by
  have hall : ∀ r, namesOfKind K c = Except.ok r → False := by
    induction c with
    | nil =>
      obtain ⟨m, hm, _⟩ := h
      cases hm
    | cons e rest ih =>
      intro r hr
      obtain ⟨m, hm, hk⟩ := h
      rcases List.mem_cons.mp hm with rfl | hm
      · simp [namesOfKind, hk, assertString] at hr
      · have ih := ih ⟨m, hm, hk⟩
        unfold namesOfKind at hr
        split at hr
        · split at hr
          · cases hr
          · split at hr
            · exact ih r hr
            · split at hr
              · cases hr
              · split at hr
                · rename_i names hnames
                  exact ih names hnames
                · cases hr
        · cases hr
  have hpanic : ∀ (l : List Value) (p : Panic), namesOfKind K l = Except.error p →
      p = Panic.typeAssertion := by
    intro l
    induction l with
    | nil =>
      intro p hp
      cases hp
    | cons e rest ih =>
      intro p hp
      unfold namesOfKind at hp
      split at hp
      · split at hp
        · rename_i e1 he1
          cases hp
          unfold assertString at he1
          split at he1
          · cases he1
          · cases he1
            rfl
        · split at hp
          · exact ih p hp
          · split at hp
            · rename_i e1 he1
              cases hp
              unfold assertString at he1
              split at he1
              · cases he1
              · cases he1
                rfl
            · split at hp
              · cases hp
              · rename_i e1 he1
                cases hp
                exact ih _ he1
      · cases hp
        rfl
  cases hres : namesOfKind K c with
  | ok r => exact absurd hres (fun hr => hall r hr)
  | error p => rw [hpanic c p hres]

/-- C15. When the sort of strings behaves as documented and every element of
the collection has a string kind and a string name, `objects` returns, in
increasing order, a permutation of the names of exactly the elements of kind
`OBJECT`, and `inputObjects` does so for the kind `INPUT_OBJECT`. -/
theorem objects_spec (T : Stdlib) (hT : T.Sorts) (c : List Value)
    (h : ∀ e ∈ c, HasString "kind" e ∧ HasString "name" e) :
    (∃ r, objects T c = Except.ok r ∧ r.Pairwise (fun a b => a ≤ b) ∧
      r.Perm ((c.filter fun e => fieldOf "kind" e == some "OBJECT").filterMap
        (fieldOf "name"))) ∧
    (∃ r, inputObjects T c = Except.ok r ∧ r.Pairwise (fun a b => a ≤ b) ∧
      r.Perm ((c.filter fun e => fieldOf "kind" e == some "INPUT_OBJECT").filterMap
        (fieldOf "name"))) := by
  have hk : ∀ K : String, ∀ e ∈ c, ∃ m k, e = Value.object m ∧
      m.lookup "kind" = some (Value.str k) ∧
      (k = K → ∃ n, m.lookup "name" = some (Value.str n)) := by
    intro K e he
    obtain ⟨⟨m, k, rfl, hkind⟩, ⟨m2, n, heq, hname⟩⟩ := h e he
    cases heq
    exact ⟨m, k, rfl, hkind, fun _ => ⟨n, hname⟩⟩
  constructor
  · refine ⟨_, ?_, hT.strings_sorted _, hT.strings_perm _⟩
    rw [objects, namesOfKind_eq "OBJECT" c (hk "OBJECT")]
  · refine ⟨_, ?_, hT.strings_sorted _, hT.strings_perm _⟩
    rw [inputObjects, namesOfKind_eq "INPUT_OBJECT" c (hk "INPUT_OBJECT")]

/-- C15, instance: objects and an input object out of order. -/
theorem objects_spec_witness :
    (∃ r, objects plainStd
        [element "OBJECT" "b", element "INPUT_OBJECT" "c", element "OBJECT" "a"]
          = Except.ok r ∧
      r.Pairwise (fun a b => a ≤ b) ∧ r.Perm ["b", "a"]) ∧
    (∃ r, inputObjects plainStd
        [element "OBJECT" "b", element "INPUT_OBJECT" "c", element "OBJECT" "a"]
          = Except.ok r ∧
      r.Pairwise (fun a b => a ≤ b) ∧ r.Perm ["c"]) :=
  objects_spec plainStd plainStd_sorts
    [element "OBJECT" "b", element "INPUT_OBJECT" "c", element "OBJECT" "a"] (by
      intro e he
      simp only [List.mem_cons, List.mem_singleton, List.not_mem_nil, or_false] at he
      rcases he with rfl | rfl | rfl
      · exact ⟨⟨_, "OBJECT", rfl, rfl⟩, ⟨_, "b", rfl, rfl⟩⟩
      · exact ⟨⟨_, "INPUT_OBJECT", rfl, rfl⟩, ⟨_, "c", rfl, rfl⟩⟩
      · exact ⟨⟨_, "OBJECT", rfl, rfl⟩, ⟨_, "a", rfl, rfl⟩⟩)

/-- C16, counterexample: on a collection whose only element has a name and
no kind, Filter-by skips the element and the sorted extraction is empty,
while `objects` and `inputObjects` panic on the type assertion of the
kind. -/
theorem objects_panics_without_kind :
    namesByFilter plainStd "OBJECT" [Value.object [("name", Value.str "A")]]
      = Except.ok [] ∧
    objects plainStd [Value.object [("name", Value.str "A")]]
      = Except.error Panic.typeAssertion ∧
    namesByFilter plainStd "INPUT_OBJECT" [Value.object [("name", Value.str "A")]]
      = Except.ok [] ∧
    inputObjects plainStd [Value.object [("name", Value.str "A")]]
      = Except.error Panic.typeAssertion :=
  ⟨rfl, rfl, rfl, rfl⟩

/-- C16, amended. On a collection whose elements are maps with a string
kind, and with a string name when the kind is the one asked for, `objects`
is Filter-by on the kind `OBJECT`, then Extract-field of the names, then the
sort of strings, and `inputObjects` is the same for `INPUT_OBJECT`; on a
collection with a map that has no kind, `objects` and `inputObjects`
panic. -/
theorem objects_eq_namesByFilter (T : Stdlib) (c : List Value) :
    ((∀ e ∈ c, ∃ m k, e = Value.object m ∧ m.lookup "kind" = some (Value.str k) ∧
        (k = "OBJECT" → ∃ n, m.lookup "name" = some (Value.str n))) →
      objects T c = namesByFilter T "OBJECT" c) ∧
    ((∀ e ∈ c, ∃ m k, e = Value.object m ∧ m.lookup "kind" = some (Value.str k) ∧
        (k = "INPUT_OBJECT" → ∃ n, m.lookup "name" = some (Value.str n))) →
      inputObjects T c = namesByFilter T "INPUT_OBJECT" c) ∧
    ((∃ m, Value.object m ∈ c ∧ m.lookup "kind" = none) →
      objects T c = Except.error Panic.typeAssertion ∧
      inputObjects T c = Except.error Panic.typeAssertion) := by
  have key : ∀ K : String,
      (∀ e ∈ c, ∃ m k, e = Value.object m ∧ m.lookup "kind" = some (Value.str k) ∧
        (k = K → ∃ n, m.lookup "name" = some (Value.str n))) →
      (match namesOfKind K c with
        | Except.ok names => Except.ok (T.sortStrings names)
        | Except.error e => Except.error e) = namesByFilter T K c := by
    intro K h
    have hf : filterBy "kind" K c
        = Except.ok (c.filter fun e => fieldOf "kind" e == some K) := by
      apply filterBy_eq_filter
      intro e he
      obtain ⟨m, k, rfl, hk, _⟩ := h e he
      exact ⟨m, rfl, Or.inr ⟨k, hk⟩⟩
    have he : extractField "name" (c.filter fun e => fieldOf "kind" e == some K)
        = Except.ok ((c.filter fun e => fieldOf "kind" e == some K).filterMap
            (fieldOf "name")) := by
      apply extractField_eq_filterMap
      intro e he
      have hmem := List.mem_of_mem_filter he
      have hp := List.of_mem_filter he
      obtain ⟨m, k, rfl, hk, hn⟩ := h e hmem
      have hkK : k = K := by
        simpa [fieldOf, hk] using hp
      obtain ⟨n, hn⟩ := hn hkK
      exact ⟨m, rfl, Or.inr ⟨n, hn⟩⟩
    rw [namesOfKind_eq K c h, namesByFilter, hf]
    simp only [he]
  refine ⟨fun h => key "OBJECT" h, fun h => key "INPUT_OBJECT" h, fun h => ⟨?_, ?_⟩⟩
  · rw [objects, namesOfKind_no_kind "OBJECT" c h]
  · rw [inputObjects, namesOfKind_no_kind "INPUT_OBJECT" c h]

/-- C16, instance: a collection on which the two readings agree. -/
theorem objects_eq_namesByFilter_witness :
    objects plainStd [element "OBJECT" "b", Value.object [("kind", Value.str "ENUM")]]
      = namesByFilter plainStd "OBJECT"
          [element "OBJECT" "b", Value.object [("kind", Value.str "ENUM")]] :=
  (objects_eq_namesByFilter plainStd
    [element "OBJECT" "b", Value.object [("kind", Value.str "ENUM")]]).1 (by
      intro e he
      simp only [List.mem_cons, List.mem_singleton, List.not_mem_nil, or_false] at he
      rcases he with rfl | rfl
      · exact ⟨_, "OBJECT", rfl, rfl, fun _ => ⟨"b", rfl⟩⟩
      · exact ⟨_, "ENUM", rfl, rfl, fun hk => absurd hk (by decide)⟩)

/-! ## Format-Description -/

/-- C17, the two examples of the specification and a description whose first
letter is not ASCII: `Some text` and `Already ends.` come out as stated, but
on `Élan` the first byte alone is lower-cased, so the second byte of `É` is
left behind a byte sequence that is not `é`, and the result is not
`élan.`. -/
theorem formatDescription_first_byte (T : Stdlib) :
    formatDescription T (utf8 "Some text") = Except.ok (utf8 "some text.") ∧
    formatDescription T (utf8 "Already ends.") = Except.ok (utf8 "already ends.") ∧
    utf8 "Élan" = [195, 137, 108, 97, 110] ∧
    formatDescription T (utf8 "Élan")
      = Except.ok (T.lowerLoneByte 195 ++ [137, 108, 97, 110, 46]) ∧
    formatDescription T (utf8 "Élan") ≠ Except.ok (utf8 "élan.") := by
  have h : formatDescription T (utf8 "Élan")
      = Except.ok (T.lowerLoneByte 195 ++ [137, 108, 97, 110, 46]) := by
    have hu : utf8 "Élan" = [195, 137, 108, 97, 110] := by decide
    rw [hu]
    simp [formatDescription, lowerFirstByte, hasSuffixDot]
  refine ⟨rfl, rfl, by decide, h, ?_⟩
  rw [h]
  have hu : utf8 "élan." = [195, 169, 108, 97, 110, 46] := by decide
  rw [hu]
  intro heq
  have hrev := congrArg List.reverse (Except.ok.inj heq)
  simp at hrev

/-- C18, the empty description: the slice `s[0:1]` is out of range and the
closure panics. -/
theorem formatDescription_empty (T : Stdlib) :
    utf8 "" = [] ∧ formatDescription T (utf8 "") = Except.error Panic.sliceBounds :=
  ⟨rfl, rfl⟩

/-! ## Totality of the resolver -/

/-- A result on a node that is not `NON_NULL` starts with the marker. -/
theorem hasStar_of_not_nonNull (L : Lib) (t : Obj) (s : String)
    (h : typeString L t = Except.ok s)
    (hn : ifaceIs (t.lookup "kind") "NON_NULL" = false) : hasStar s = true := by
  rcases typeString_shape L t s h hn with
    ⟨_, name, _, rfl⟩ | ⟨_, inner2, r2, _, _, rfl⟩ | ⟨_, name, _, rfl⟩ |
    ⟨_, _, _, name, _, rfl⟩
  · exact hasStar_star_append _
  · simp [hasStar]
  · exact hasStar_star_append _
  · exact hasStar_star_append _

/-- A string entry is compared by its value. -/
theorem ifaceIs_str (k k2 : String) : ifaceIs (some (Value.str k)) k2 = (k == k2) := rfl

/-- The resolver returns on every well-formed node. -/
theorem typeString_of_wellFormed (L : Lib) (t : Obj) (h : WellFormed t) :
    ∃ s, typeString L t = Except.ok s := by
  induction h with
  | named t k n hk hnn hl hname =>
    have hn : ifaceIs (t.lookup "kind") "NON_NULL" = false := by
      rw [hk, ifaceIs_str]
      simpa using hnn
    have hl : ifaceIs (t.lookup "kind") "LIST" = false := by
      rw [hk, ifaceIs_str]
      simpa using hl
    by_cases hs : ifaceIs (t.lookup "kind") "SCALAR" = true
    · exact ⟨_, by rw [typeString_scalar_eq L t hs, hname]; rfl⟩
    · have hs : ifaceIs (t.lookup "kind") "SCALAR" = false := by simpa using hs
      by_cases he : ifaceIs (t.lookup "kind") "ENUM" = true
      · exact ⟨_, by rw [typeString_enum_eq L t he, hname]; rfl⟩
      · have he : ifaceIs (t.lookup "kind") "ENUM" = false := by simpa using he
        exact ⟨_, by rw [typeString_default_eq L t hs hn hl he, hname]; rfl⟩
  | list t inner hk ho _ ih =>
    obtain ⟨r, hr⟩ := ih
    have hl : ifaceIs (t.lookup "kind") "LIST" = true := by
      rw [hk]
      rfl
    exact ⟨_, by rw [typeString_list_eq L t inner hl ho, hr]⟩
  | nonNull t inner hk ho hin _ ih =>
    obtain ⟨r, hr⟩ := ih
    have hn : ifaceIs (t.lookup "kind") "NON_NULL" = true := by
      rw [hk]
      rfl
    have hstar := hasStar_of_not_nonNull L inner r hr hin
    refine ⟨dropFirst r, ?_⟩
    rw [typeString_nonNull_eq L t inner hn ho, hr]
    simp [hstar]

/-- The type assertion to `string` fails with the type-assertion panic. -/
theorem assertString_error (v : Option Value) (e : Panic)
    (h : assertString v = Except.error e) : e = Panic.typeAssertion := by
  unfold assertString at h
  split at h
  · cases h
  · cases h
    rfl

/-- The explicit panic is raised only below a `NON_NULL` directly around a
`NON_NULL`; by induction on the size of the node. -/
theorem doubleNonNull_of_notNullable (L : Lib) (n : Nat) :
    ∀ (t : Obj) (s : String), sizeOf t ≤ n →
      typeString L t = Except.error (Panic.notNullable s) → DoubleNonNull t := by
  induction n with
  | zero =>
    intro t s hsize h
    cases t with
    | nil =>
      rw [typeString_default_eq L [] rfl rfl rfl rfl] at h
      cases h
    | cons p rest =>
      simp at hsize
  | succ n ih =>
    intro t s hsize h
    by_cases hn : ifaceIs (t.lookup "kind") "NON_NULL" = true
    · by_cases ho : ∃ inner, t.lookup "ofType" = some (Value.object inner)
      · obtain ⟨inner, ho⟩ := ho
        have hlt : sizeOf inner ≤ n := by
          have := lookup_sizeOf_lt _ _ _ ho
          simp at this
          omega
        rw [typeString_nonNull_eq L t inner hn ho] at h
        split at h
        · rename_i r hr
          by_cases hstar : hasStar r = true
          · rw [if_pos hstar] at h
            cases h
          · by_cases hin : ifaceIs (inner.lookup "kind") "NON_NULL" = true
            · exact DoubleNonNull.direct t inner hn ho hin
            · have hin : ifaceIs (inner.lookup "kind") "NON_NULL" = false := by
                simpa using hin
              exact absurd (hasStar_of_not_nonNull L inner r hr hin) hstar
        · rename_i e he
          cases h
          exact DoubleNonNull.deeper t inner (Or.inl hn) ho (ih inner s hlt he)
      · have ho : ∀ inner, t.lookup "ofType" ≠ some (Value.object inner) :=
          fun inner hi => ho ⟨inner, hi⟩
        rw [typeString_wrapper_no_ofType L t (Or.inl hn) ho] at h
        cases h
    · have hn : ifaceIs (t.lookup "kind") "NON_NULL" = false := by simpa using hn
      by_cases hl : ifaceIs (t.lookup "kind") "LIST" = true
      · by_cases ho : ∃ inner, t.lookup "ofType" = some (Value.object inner)
        · obtain ⟨inner, ho⟩ := ho
          have hlt : sizeOf inner ≤ n := by
            have := lookup_sizeOf_lt _ _ _ ho
            simp at this
            omega
          rw [typeString_list_eq L t inner hl ho] at h
          split at h
          · cases h
          · rename_i e he
            cases h
            exact DoubleNonNull.deeper t inner (Or.inr hl) ho (ih inner s hlt he)
        · have ho : ∀ inner, t.lookup "ofType" ≠ some (Value.object inner) :=
            fun inner hi => ho ⟨inner, hi⟩
          rw [typeString_wrapper_no_ofType L t (Or.inr hl) ho] at h
          cases h
      · have hl : ifaceIs (t.lookup "kind") "LIST" = false := by simpa using hl
        by_cases hs : ifaceIs (t.lookup "kind") "SCALAR" = true
        · rw [typeString_scalar_eq L t hs] at h
          split at h
          · cases h
          · rename_i e he
            cases h
            cases assertString_error _ _ he
        · have hs : ifaceIs (t.lookup "kind") "SCALAR" = false := by simpa using hs
          by_cases he : ifaceIs (t.lookup "kind") "ENUM" = true
          · rw [typeString_enum_eq L t he] at h
            split at h
            · cases h
            · rename_i e he2
              cases h
              cases assertString_error _ _ he2
          · have he : ifaceIs (t.lookup "kind") "ENUM" = false := by simpa using he
            rw [typeString_default_eq L t hs hn hl he] at h
            split at h
            · cases h
            · rename_i e he2
              cases h
              cases assertString_error _ _ he2

/-- C20. On a well-formed node (every node has a string kind, a `NON_NULL`
or `LIST` node has a node under "ofType", any other node has a string name,
no `NON_NULL` is directly around a `NON_NULL`) the resolver returns a string;
and whenever it stops with the "doesn't begin with '*'" panic, the chain of
wrappers of the node has a `NON_NULL` directly around a `NON_NULL`. -/
theorem typeString_total (L : Lib) (t : Obj) :
    (WellFormed t → ∃ s, typeString L t = Except.ok s) ∧
    (∀ s, typeString L t = Except.error (Panic.notNullable s) → DoubleNonNull t) :=
  ⟨typeString_of_wellFormed L t,
    fun s h => doubleNonNull_of_notNullable L (sizeOf t) t s (Nat.le_refl _) h⟩

/-- C20, instance: a non-null list of non-null strings is well formed and
resolves. -/
theorem typeString_total_witness :
    WellFormed (nonNullOf (listOf (nonNullOf (named "SCALAR" "String")))) ∧
    ∃ s, typeString plainLib (nonNullOf (listOf (nonNullOf (named "SCALAR" "String"))))
      = Except.ok s := by
  have hw : WellFormed (nonNullOf (listOf (nonNullOf (named "SCALAR" "String")))) := by
    refine WellFormed.nonNull _ _ rfl rfl (by decide) ?_
    refine WellFormed.list _ _ rfl rfl ?_
    refine WellFormed.nonNull _ _ rfl rfl (by decide) ?_
    exact WellFormed.named _ "SCALAR" "String" rfl (by decide) (by decide) rfl
  exact ⟨hw, (typeString_total plainLib _).1 hw⟩

/-! ## Clean -/

/-- The space is white space. -/
theorem isSpace_space (T : Stdlib) : isSpace T ' ' = true := by
  simp [isSpace]

/-- White space at the front is skipped. -/
theorem fields_space (T : Stdlib) (c : Char) (rest : List Char)
    (hc : isSpace T c = true) : fields T (c :: rest) = fields T rest := by
  cases rest <;> simp [fields, hc]

/-- A last rune that is not white space is a field. -/
theorem fields_single (T : Stdlib) (c : Char) (hc : isSpace T c = false) :
    fields T [c] = [[c]] := by
  simp [fields, hc]

/-- A rune followed by white space ends a field. -/
theorem fields_rune_space (T : Stdlib) (c d : Char) (rest : List Char)
    (hc : isSpace T c = false) (hd : isSpace T d = true) :
    fields T (c :: d :: rest) = [c] :: fields T (d :: rest) := by
  rw [fields]
  simp [hc, hd]

/-- A rune followed by a rune extends the first field of the rest. -/
theorem fields_rune_rune (T : Stdlib) (c d : Char) (rest : List Char)
    (hc : isSpace T c = false) (hd : isSpace T d = false) :
    fields T (c :: d :: rest) =
      match fields T (d :: rest) with
      | w :: ws => (c :: w) :: ws
      | [] => [[c]] := by
  rw [fields]
  simp [hc, hd]

/-- The fields of a string are words. -/
theorem fields_isWord (T : Stdlib) (l : List Char) : ∀ w ∈ fields T l, IsWord T w := by
  induction l with
  | nil =>
    intro w hw
    simp [fields] at hw
  | cons c rest ih =>
    intro w hw
    by_cases hc : isSpace T c = true
    · rw [fields_space T c rest hc] at hw
      exact ih w hw
    · have hc : isSpace T c = false := by simpa using hc
      have hword : ∀ x ∈ [c], isSpace T x = false := by
        intro x hx
        rw [List.mem_singleton.mp hx]
        exact hc
      cases rest with
      | nil =>
        rw [fields_single T c hc] at hw
        rw [List.mem_singleton.mp hw]
        exact ⟨by simp, hword⟩
      | cons d rest2 =>
        by_cases hd : isSpace T d = true
        · rw [fields_rune_space T c d rest2 hc hd] at hw
          rcases List.mem_cons.mp hw with rfl | hw
          · exact ⟨by simp, hword⟩
          · exact ih w hw
        · have hd : isSpace T d = false := by simpa using hd
          rw [fields_rune_rune T c d rest2 hc hd] at hw
          cases hf : fields T (d :: rest2) with
          | nil =>
            rw [hf] at hw
            rw [List.mem_singleton.mp hw]
            exact ⟨by simp, hword⟩
          | cons v vs =>
            rw [hf] at hw
            rcases List.mem_cons.mp hw with rfl | hw
            · have hv := ih v (by rw [hf]; exact List.mem_cons_self _ _)
              refine ⟨by simp, ?_⟩
              intro x hx
              rcases List.mem_cons.mp hx with rfl | hx
              · exact hc
              · exact hv.2 x hx
            · exact ih w (by rw [hf]; exact List.mem_cons_of_mem _ hw)

/-- The fields of a word followed by white space and more: the word, then
the fields of the rest. -/
theorem fields_word_append (T : Stdlib) (w : List Char) (hw : IsWord T w)
    (s : Char) (hs : isSpace T s = true) (l : List Char) :
    fields T (w ++ s :: l) = w :: fields T l := by
  obtain ⟨hne, hall⟩ := hw
  induction w with
  | nil => exact absurd rfl hne
  | cons c w2 ih =>
    have hc := hall c (List.mem_cons_self _ _)
    cases w2 with
    | nil =>
      simp only [List.cons_append, List.nil_append]
      rw [fields_rune_space T c s l hc hs, fields_space T s l hs]
    | cons d w3 =>
      have hd := hall d (List.mem_cons_of_mem _ (List.mem_cons_self _ _))
      have ih := ih (by simp) (fun x hx => hall x (List.mem_cons_of_mem _ hx))
      simp only [List.cons_append] at ih ⊢
      rw [fields_rune_rune T c d _ hc hd, ih]

/-- The fields of a single word. -/
theorem fields_word (T : Stdlib) (w : List Char) (hw : IsWord T w) :
    fields T w = [w] := by
  obtain ⟨hne, hall⟩ := hw
  induction w with
  | nil => exact absurd rfl hne
  | cons c w2 ih =>
    have hc := hall c (List.mem_cons_self _ _)
    cases w2 with
    | nil => exact fields_single T c hc
    | cons d w3 =>
      have hd := hall d (List.mem_cons_of_mem _ (List.mem_cons_self _ _))
      have ih := ih (by simp) (fun x hx => hall x (List.mem_cons_of_mem _ hx))
      rw [fields_rune_rune T c d _ hc hd, ih]

/-- Splitting the join of words gives the words back. -/
theorem fields_joinSpace (T : Stdlib) (ws : List (List Char))
    (h : ∀ w ∈ ws, IsWord T w) : fields T (joinSpace ws) = ws := by
  induction ws with
  | nil => rfl
  | cons w rest ih =>
    have hw := h w (List.mem_cons_self _ _)
    have ih := ih (fun x hx => h x (List.mem_cons_of_mem _ hx))
    cases rest with
    | nil => exact fields_word T w hw
    | cons v vs =>
      rw [joinSpace, fields_word_append T w hw ' ' (isSpace_space T), ih]

/-- A list of runes without white space has no two adjacent white-space
runes. -/
theorem chain_of_no_space (T : Stdlib) (l : List Char)
    (hl : ∀ c ∈ l, isSpace T c = false) :
    l.Chain' (fun a b => ¬ (isSpace T a = true ∧ isSpace T b = true)) := by
  induction l with
  | nil => exact List.chain'_nil
  | cons a l2 ihl =>
    rw [List.chain'_cons']
    refine ⟨?_, ihl (fun x hx => hl x (List.mem_cons_of_mem _ hx))⟩
    intro b _ hab
    rw [hl a (List.mem_cons_self _ _)] at hab
    simp at hab

/-- A join of at least one word is not empty. -/
theorem joinSpace_ne_nil (T : Stdlib) (v : List Char) (vs : List (List Char))
    (hv : IsWord T v) : joinSpace (v :: vs) ≠ [] := by
  obtain ⟨c1, v1, rfl⟩ := List.exists_cons_of_ne_nil hv.1
  cases vs <;> simp [joinSpace]

/-- In a join of words every white-space rune is a space, the first and the
last rune are not white space, and no two white-space runes are adjacent. -/
theorem joinSpace_shape (T : Stdlib) (ws : List (List Char))
    (h : ∀ w ∈ ws, IsWord T w) :
    (∀ c ∈ joinSpace ws, isSpace T c = true → c = ' ') ∧
    (∀ c, (joinSpace ws).head? = some c → isSpace T c = false) ∧
    (∀ c, (joinSpace ws).getLast? = some c → isSpace T c = false) ∧
    (joinSpace ws).Chain' (fun a b => ¬ (isSpace T a = true ∧ isSpace T b = true)) := by
  induction ws with
  | nil => simp [joinSpace]
  | cons w rest ih =>
    have hw := h w (List.mem_cons_self _ _)
    have ih := ih (fun x hx => h x (List.mem_cons_of_mem _ hx))
    cases rest with
    | nil =>
      simp only [joinSpace]
      refine ⟨?_, ?_, ?_, chain_of_no_space T w hw.2⟩
      · intro c hc hsp
        rw [hw.2 c hc] at hsp
        cases hsp
      · intro c hc
        exact hw.2 c (List.mem_of_mem_head? hc)
      · intro c hc
        exact hw.2 c (List.mem_of_getLast?_eq_some hc)
    | cons v vs =>
      obtain ⟨ih1, ih2, ih3, ih4⟩ := ih
      have hvne : joinSpace (v :: vs) ≠ [] :=
        joinSpace_ne_nil T v vs (h v (List.mem_cons_of_mem _ (List.mem_cons_self _ _)))
      obtain ⟨c0, w0, rfl⟩ := List.exists_cons_of_ne_nil hw.1
      simp only [joinSpace]
      refine ⟨?_, ?_, ?_, ?_⟩
      · intro c hc hsp
        rcases List.mem_append.mp hc with hc | hc
        · rw [hw.2 c hc] at hsp
          cases hsp
        · rcases List.mem_cons.mp hc with rfl | hc
          · rfl
          · exact ih1 c hc hsp
      · intro c hc
        simp only [List.cons_append, List.head?_cons, Option.some.injEq] at hc
        subst hc
        exact hw.2 _ (List.mem_cons_self _ _)
      · intro c hc
        apply ih3 c
        rw [List.getLast?_append_of_ne_nil _ (by simp)] at hc
        obtain ⟨j0, js, hj⟩ := List.exists_cons_of_ne_nil hvne
        rw [hj] at hc ⊢
        rw [List.getLast?_cons_cons] at hc
        exact hc
      · rw [List.chain'_append]
        refine ⟨chain_of_no_space T _ hw.2, ?_, ?_⟩
        · rw [List.chain'_cons']
          refine ⟨?_, ih4⟩
          intro b hb hab
          rw [ih2 b hb] at hab
          simp at hab
        · intro a ha b hb hab
          rw [hw.2 a (List.mem_of_getLast?_eq_some ha)] at hab
          simp at hab

/-- C19. For every string, `clean` is the join with single spaces of the
fields of the string, which are its maximal runs without white space, in
order: the result has no white space at either end, its only white-space
runes are spaces and no two of them are adjacent, `clean` applied to a
result returns it unchanged, and `"  a   b\n c "` becomes `"a b c"`. -/
theorem clean_spec (T : Stdlib) (s : String) :
    (clean T s).data = joinSpace (fields T s.data) ∧
    (∀ w ∈ fields T s.data, IsWord T w) ∧
    (∀ c, (clean T s).data.head? = some c → isSpace T c = false) ∧
    (∀ c, (clean T s).data.getLast? = some c → isSpace T c = false) ∧
    (∀ c ∈ (clean T s).data, isSpace T c = true → c = ' ') ∧
    (clean T s).data.Chain' (fun a b => ¬ (isSpace T a = true ∧ isSpace T b = true)) ∧
    clean T (clean T s) = clean T s ∧
    clean T "  a   b\n c " = "a b c" := by
  have hw := fields_isWord T s.data
  obtain ⟨h1, h2, h3, h4⟩ := joinSpace_shape T (fields T s.data) hw
  refine ⟨rfl, hw, h2, h3, h1, h4, ?_, ?_⟩
  · show (⟨joinSpace (fields T (joinSpace (fields T s.data)))⟩ : String)
      = ⟨joinSpace (fields T s.data)⟩
    rw [fields_joinSpace T _ hw]
  · apply String.ext
    simp [clean, fields, isSpace, joinSpace]

end Gqlassist
